import Mathlib

/-!
# Verification of the LinePlanner layout generator

Shallow embedding of `src/utils` layout generation (`generateLayout` and its
helpers, from the TypeScript source) together with the capacity-planning step
`calculateMachineRequirements` (the `lineBalancing` module, modelled from the
spec since its source file is not part of the sources at hand).

Modelling conventions:
* TypeScript numbers are modelled as exact rationals `ℚ`.
* Yaw angles are stored in units of π: the source constants `-Math.PI/2`,
  `Math.PI/2`, `Math.PI`, `0` become `-1/2`, `1/2`, `1`, `0`. The scaling is
  injective on these four values, so every equality/disequality of yaw values
  is preserved.
* `uuidv4()` is modelled by an ambient supply `u : ℕ → String` together with a
  draw counter threaded through the generator; entity ids embed `u n` exactly
  where the source embeds a fresh uuid.
* JavaScript string operations `toLowerCase` / `includes` are modelled by
  `String.toLower` and the substring test `strIncludes`.
* The source mutates a `layout` array by `push`; the embedding returns the
  entity lists in the same order and concatenates them.
-/

/-- `pre` starts the character list `s`. -/
def listStartsWith : List Char → List Char → Bool
  | _, [] => true
  | [], _ :: _ => false
  | c :: cs, d :: ds => c == d && listStartsWith cs ds

/-- `n` occurs as a contiguous run inside `s`. -/
def listIncludes : List Char → List Char → Bool
  | [], n => n.isEmpty
  | c :: cs, n => listStartsWith (c :: cs) n || listIncludes cs n

/-- JavaScript `haystack.includes(needle)`: substring test. -/
def strIncludes (haystack needle : String) : Bool :=
  listIncludes haystack.data needle.data

/-- JavaScript `toLowerCase()` (ASCII, as `Char.toLower`). -/
def toLowerStr (s : String) : String :=
  ⟨s.data.map Char.toLower⟩

/-- `Operation` record from `src/types`. The `section` field is named
`sectionLabel` because `section` is a Lean keyword. -/
structure Operation where
  op_no : String
  op_name : String
  machine_type : String
  smv : ℚ
  sectionLabel : String
  deriving Repr, DecidableEq

/-- A balanced operation: `{operation, count}` as produced by
`calculateMachineRequirements`. -/
structure BalancedOp where
  operation : Operation
  count : ℤ
  deriving Repr, DecidableEq

/-- 3D vector (positions and Euler rotations). -/
structure Vec3 where
  x : ℚ
  y : ℚ
  z : ℚ
  deriving Repr, DecidableEq

/-- The four lanes. -/
inductive Lane where
  | A | B | C | D
  deriving Repr, DecidableEq

/-- A placed entity (`MachinePosition` in the source). Machine entities carry
`machineIndex = some k` with `k ≥ 0`; boards carry `some (-1)`; the
inspection-table and trolley fixtures carry no index (`none`) and set their
respective flags. -/
structure MachinePosition where
  id : String
  operation : Operation
  position : Vec3
  rotation : Vec3
  lane : Lane
  sectionLabel : String
  machineIndex : Option ℤ
  isInspection : Bool
  isTrolley : Bool
  deriving Repr, DecidableEq

-- Constants (Units: Approx Meters)
def LANE_Z_A : ℚ := -(6/5)
def LANE_Z_B : ℚ := -(14/5)
def LANE_Z_C : ℚ := 6/5
def LANE_Z_D : ℚ := 14/5

def MACHINE_SPACING_X : ℚ := 2
def SECTION_GAP_X : ℚ := 2

-- Rotations (yaw in units of π; the source stores radians)
def ROT_FACE_FRONT : ℚ := -(1/2)
def ROT_FACE_BACK : ℚ := 1/2
def ROT_FACE_LEFT : ℚ := 1
def ROT_FACE_RIGHT : ℚ := 0

def ROT_A_FACES_B : ℚ := ROT_FACE_LEFT
def ROT_B_FACES_A : ℚ := ROT_FACE_RIGHT
def ROT_C_FACES_D : ℚ := ROT_FACE_RIGHT
def ROT_D_FACES_C : ℚ := ROT_FACE_LEFT

/-- The four per-lane cursors (`LaneCursors` in the source). -/
structure LaneCursors where
  A : ℚ
  B : ℚ
  C : ℚ
  D : ℚ
  deriving Repr, DecidableEq

/-- Dynamic read `cursors[lane]`. -/
def LaneCursors.get (c : LaneCursors) : Lane → ℚ
  | Lane.A => c.A
  | Lane.B => c.B
  | Lane.C => c.C
  | Lane.D => c.D

/-- Dynamic write `cursors[lane] = v`. -/
def LaneCursors.set (c : LaneCursors) : Lane → ℚ → LaneCursors
  | Lane.A, v => { c with A := v }
  | Lane.B, v => { c with B := v }
  | Lane.C, v => { c with C := v }
  | Lane.D, v => { c with D := v }

/-- Errors raised by the capacity planner. -/
inductive PlanError where
  | InvalidDemand
  deriving Repr, DecidableEq

/-- Modelled from the spec: the `calculateMachineRequirements` function of the
repository's `lineBalancing` module is imported by `generateLayout` but its
source file is missing. Per the spec: fails with `InvalidDemand` unless
`targetOutputPerDay > 0` and `workingMinutesPerDay > 0`; otherwise maps each
operation, preserving order, to `requiredCount = ceil(smv × target / working)`,
with a minimum of one machine so that an operation with zero processing time
still gets exactly one station. -/
def calculateMachineRequirements (operations : List Operation)
    (targetOutput workingMinutes : ℚ) : Except PlanError (List BalancedOp) :=
  if targetOutput ≤ 0 ∨ workingMinutes ≤ 0 then
    Except.error PlanError.InvalidDemand
  else
    Except.ok (operations.map fun op =>
      { operation := op, count := max 1 ⌈op.smv * targetOutput / workingMinutes⌉ })

/-- `createDummyOp` from the source. -/
def createDummyOp (name sec : String) : Operation :=
  { op_no := "00", op_name := name, machine_type := name, smv := 0,
    sectionLabel := sec }

/-- The key an item is grouped under: `item.operation.section || 'Unknown'`. -/
def sectionKey (item : BalancedOp) : String :=
  if item.operation.sectionLabel = "" then "Unknown" else item.operation.sectionLabel

/-- Grouping by section with first-seen order (the `sectionsMap`/`sectionOrder`
construction of `generateLayout`). -/
def groupBySection (items : List BalancedOp) : List (String × List BalancedOp) :=
  items.foldl
    (fun acc item =>
      let sec := sectionKey item
      if acc.any (fun p => p.1 = sec) then
        acc.map (fun p => if p.1 = sec then (p.1, p.2 ++ [item]) else p)
      else
        acc ++ [(sec, [item])])
    []

-- Section definitions from the source
def abSections : List String := ["cuff", "sleeve", "back"]
def cdSections : List String := ["collar", "front"]
def assemblySection : String := "assembly"

/-- `addMachine` helper: builds one machine entity. `u` is the uuid supply and
`n` the current draw counter. -/
def addMachine (u : ℕ → String) (n : ℕ) (op : Operation) (lane : Lane)
    (xPos : ℚ) (countIdx : ℤ) (forcedRot : Option ℚ) (sectionName : Option String) :
    MachinePosition :=
  let z : ℚ :=
    match lane with
    | Lane.A => LANE_Z_A
    | Lane.B => LANE_Z_B
    | Lane.C => LANE_Z_C
    | Lane.D => LANE_Z_D
  let ry0 : ℚ :=
    match lane with
    | Lane.A => ROT_A_FACES_B
    | Lane.B => ROT_B_FACES_A
    | Lane.C => ROT_C_FACES_D
    | Lane.D => ROT_D_FACES_C
  let ty := toLowerStr op.machine_type
  let ry1 := if strIncludes ty "iron" || strIncludes ty "inspection" then
    ROT_FACE_FRONT else ry0
  let ry := match forcedRot with
    | some r => r
    | none => ry1
  { id := op.op_no ++ "-" ++ toString countIdx ++ "-" ++ u n
    operation := op
    position := { x := xPos, y := 0, z := z }
    rotation := { x := 0, y := ry, z := 0 }
    lane := lane
    sectionLabel :=
      match sectionName with
      | some s => if s = "" then op.sectionLabel else s
      | none => op.sectionLabel
    machineIndex := some countIdx
    isInspection := false
    isTrolley := false }

/-- `addBoard` helper: builds one elevated section-board fixture. -/
def addBoard (u : ℕ → String) (n : ℕ) (name : String) (xPos zPos : ℚ) :
    MachinePosition :=
  let dummyOp := { createDummyOp name name with machine_type := "Board" }
  { id := "board-" ++ name ++ "-" ++ u n
    operation := dummyOp
    position := { x := xPos, y := 5/2, z := zPos }
    rotation := { x := 0, y := ROT_FACE_FRONT, z := 0 }
    lane := if zPos < 0 then Lane.A else Lane.C
    sectionLabel := name
    machineIndex := some (-1)
    isInspection := false
    isTrolley := false }

/-- One operation's run of machines in one lane: the inner
`for (let k = 0; k < count; k++)` loop of the non-assembly branch. Machine `k`
sits at `xPos + k × MACHINE_SPACING_X` and consumes uuid draw `n + k`. -/
def placeRun (u : ℕ → String) (n : ℕ) (op : Operation) (lane : Lane)
    (xPos : ℚ) (count : ℤ) (secName : String) : List MachinePosition :=
  (List.range count.toNat).map fun k =>
    addMachine u (n + k) op lane (xPos + MACHINE_SPACING_X * k) k none (some secName)

/-- The alternating per-operation placement loop of the non-assembly branch:
the current operation's whole run goes into `lane1`, then the roles of the two
lanes swap for the rest of the list. Returns the emitted entities, the updated
cursors and the updated uuid counter. -/
def placeOpsAlt (u : ℕ → String) (n : ℕ) (items : List BalancedOp)
    (lane1 lane2 : Lane) (cursors : LaneCursors) (secName : String) :
    List MachinePosition × LaneCursors × ℕ :=
  match items with
  | [] => ([], cursors, n)
  | item :: rest =>
    let x0 := cursors.get lane1
    let run := placeRun u n item.operation lane1 x0 item.count secName
    let cursors1 := cursors.set lane1 (x0 + MACHINE_SPACING_X * item.count.toNat)
    let r := placeOpsAlt u (n + item.count.toNat) rest lane2 lane1 cursors1 secName
    (run ++ r.1, r.2)

/-- Lane pair for a non-assembly section: inner lane first. -/
def prepLanes (isCD : Bool) : Lane × Lane :=
  if isCD then (Lane.C, Lane.D) else (Lane.A, Lane.B)

/-- Whether a (lowercased) section name is classified CD:
`cdSections.some(s => secLower.includes(s))`. -/
def isCDSection (secLower : String) : Bool :=
  cdSections.any (fun s => strIncludes secLower s)

/-- The non-assembly ("parts preparation") branch of the section loop of
`generateLayout`: synchronize the pair's cursors, emit the section board,
advance past it, run the alternating placement, then append the inspection
table and trolley fixtures and advance both cursors. -/
def processPrepSection (u : ℕ → String) (n : ℕ) (secName : String)
    (ops : List BalancedOp) (cursors : LaneCursors) :
    List MachinePosition × LaneCursors × ℕ :=
  let secLower := toLowerStr secName
  let isCD := isCDSection secLower
  let lanes := prepLanes isCD
  let inner := lanes.1
  let outer := lanes.2
  let startX := max (cursors.get inner) (cursors.get outer) + SECTION_GAP_X
  let cursors1 := (cursors.set inner startX).set outer startX
  let board := addBoard u n secName startX (if isCD then LANE_Z_C else LANE_Z_A)
  let BOARD_GAP : ℚ := 3/2
  let cursors2 := ((cursors1.set inner (startX + BOARD_GAP)).set outer
    (startX + BOARD_GAP))
  let placed := placeOpsAlt u (n + 1) ops inner outer cursors2 secName
  let cursors3 := placed.2.1
  let endX := max (cursors3.get inner) (cursors3.get outer)
  let inspectX := endX + SECTION_GAP_X / 2
  let innerZ := if isCD then LANE_Z_C else LANE_Z_A
  let inspection : MachinePosition :=
    { id := "inspect-" ++ secName
      operation := createDummyOp "Inspection" secName
      position := { x := inspectX, y := 0, z := innerZ }
      rotation := { x := 0, y := ROT_FACE_FRONT, z := 0 }
      lane := inner
      sectionLabel := secName
      machineIndex := none
      isInspection := true
      isTrolley := false }
  let trolley : MachinePosition :=
    { id := "trolley-" ++ secName
      operation := createDummyOp "Trolley" secName
      position := { x := inspectX + 7/2, y := 0,
                    z := innerZ + (if isCD then 1/2 else -(1/2)) }
      rotation := { x := 0, y := ROT_FACE_RIGHT, z := 0 }
      lane := inner
      sectionLabel := secName
      machineIndex := none
      isInspection := false
      isTrolley := true }
  let nextStart := inspectX + 5/2
  let cursors4 := (cursors3.set inner nextStart).set outer nextStart
  (board :: placed.1 ++ [inspection, trolley], cursors4, placed.2.2)

/-- The buttoning classification of the assembly branch:
machine type or operation name mentions "button". -/
def isButtonItem (item : BalancedOp) : Bool :=
  strIncludes (toLowerStr item.operation.machine_type) "button" ||
  strIncludes (toLowerStr item.operation.op_name) "button"

/-- Lane for slot `k % 3` in the assembly round-robin `['A','B','C'][laneIdx]`. -/
def laneABC (laneIdx : ℕ) : Lane :=
  if laneIdx = 0 then Lane.A else if laneIdx = 1 then Lane.B else Lane.C

/-- The main-operation loop of the assembly branch: machine `k` of an
operation goes to lane `k % 3` of `[A,B,C]` at row `k / 3`, forced to face
front; the block cursor then advances by `ceil(count/3)` rows. Returns the
entities, the final block cursor and the uuid counter. -/
def placeAssemblyMain (u : ℕ → String) (n : ℕ) (items : List BalancedOp)
    (assemblyCursor : ℚ) (secName : String) :
    List MachinePosition × ℚ × ℕ :=
  match items with
  | [] => ([], assemblyCursor, n)
  | item :: rest =>
    let run := (List.range item.count.toNat).map fun k =>
      addMachine u (n + k) item.operation (laneABC (k % 3))
        (assemblyCursor + (k / 3 : ℕ) * MACHINE_SPACING_X) k
        (some ROT_FACE_FRONT) (some secName)
    let rows : ℤ := ⌈(item.count : ℚ) / 3⌉
    let r := placeAssemblyMain u (n + item.count.toNat) rest
      (assemblyCursor + rows * MACHINE_SPACING_X) secName
    (run ++ r.1, r.2)

/-- The buttoning loop of the assembly branch: all instances sequential in
lane D, forced to face front. -/
def placeAssemblyButton (u : ℕ → String) (n : ℕ) (items : List BalancedOp)
    (dCursor : ℚ) (secName : String) :
    List MachinePosition × ℚ × ℕ :=
  match items with
  | [] => ([], dCursor, n)
  | item :: rest =>
    let run := (List.range item.count.toNat).map fun k =>
      addMachine u (n + k) item.operation Lane.D
        (dCursor + MACHINE_SPACING_X * k) k (some ROT_FACE_FRONT) (some secName)
    let r := placeAssemblyButton u (n + item.count.toNat) rest
      (dCursor + MACHINE_SPACING_X * item.count.toNat) secName
    (run ++ r.1, r.2)

/-- The assembly branch of the section loop of `generateLayout`: synchronize
all four cursors, emit the central board, split the operations into buttoning
vs main, run both placements, then resynchronize all four cursors to the
furthest-advanced cursor. The source computes the main operations as
`ops.filter(i => !buttonOps.includes(i))` with reference equality on array
elements that each occur once, which coincides with filtering by the negated
buttoning predicate. -/
def processAssemblySection (u : ℕ → String) (n : ℕ) (secName : String)
    (ops : List BalancedOp) (cursors : LaneCursors) :
    List MachinePosition × LaneCursors × ℕ :=
  let startX := max (max cursors.A cursors.B) (max cursors.C cursors.D) +
    SECTION_GAP_X
  let board := addBoard u n "Assembly" startX 0
  let buttonOps := ops.filter isButtonItem
  let mainOps := ops.filter (fun i => !(isButtonItem i))
  let placedMain := placeAssemblyMain u (n + 1) mainOps startX secName
  let placedButton := placeAssemblyButton u placedMain.2.2 buttonOps startX secName
  let endX := max placedMain.2.1 placedButton.2.1
  (board :: placedMain.1 ++ placedButton.1,
   { A := endX, B := endX, C := endX, D := endX }, placedButton.2.2)

/-- The section loop of `generateLayout`, dispatching on whether the section
name contains "assembly". -/
def processSections (u : ℕ → String) (n : ℕ)
    (sections : List (String × List BalancedOp)) (cursors : LaneCursors) :
    List MachinePosition × LaneCursors × ℕ :=
  match sections with
  | [] => ([], cursors, n)
  | (secName, ops) :: rest =>
    let step :=
      if strIncludes (toLowerStr secName) assemblySection then
        processAssemblySection u n secName ops cursors
      else
        processPrepSection u n secName ops cursors
    let r := processSections u step.2.2 rest step.2.1
    (step.1 ++ r.1, r.2)

/-- `generateLayout` from the source: capacity planning, grouping by section,
then the section loop starting from zero cursors. An `InvalidDemand` failure
in the planner aborts the whole call. -/
def generateLayout (u : ℕ → String) (rawOperations : List Operation)
    (targetOutput workingHours : ℚ) : Except PlanError (List MachinePosition) :=
  (calculateMachineRequirements rawOperations targetOutput workingHours).map
    fun balancedOps =>
      (processSections u 0 (groupBySection balancedOps)
        { A := 0, B := 0, C := 0, D := 0 }).1

/-! ## Derived definitions used by the verification -/

/-- Strip the (possibly random) identifier component of an entity. -/
def eraseId (e : MachinePosition) : MachinePosition := { e with id := "" }

/-- Machine-class entities: those emitted once per machine instance
(`machineIndex = some k` with `k ≥ 0`), as opposed to section boards
(`some (-1)`) and the inspection/trolley fixtures (`none`). -/
def isMachineEntity (e : MachinePosition) : Bool :=
  match e.machineIndex with
  | some k => decide (0 ≤ k)
  | none => false

/-- Pointwise order on the four lane cursors. -/
def LaneCursors.le (c1 c2 : LaneCursors) : Prop :=
  c1.A ≤ c2.A ∧ c1.B ≤ c2.B ∧ c1.C ≤ c2.C ∧ c1.D ≤ c2.D

/-- The forced-front machine-type test used by `addMachine`:
the lowercased type contains "iron" or "inspection". -/
def forcedFrontType (mt : String) : Bool :=
  strIncludes (toLowerStr mt) "iron" || strIncludes (toLowerStr mt) "inspection"

/-- Follows the spec's words: lane-determined facing for non-forced types,
lane A = "left", lane B = "right", lane C = "right", lane D = "left". -/
def specLaneYaw : Lane → ℚ
  | Lane.A => ROT_FACE_LEFT
  | Lane.B => ROT_FACE_RIGHT
  | Lane.C => ROT_FACE_RIGHT
  | Lane.D => ROT_FACE_LEFT

/-- Follows the spec's words: under per-operation alternation, operation `j`
goes to the pair's first lane when `j` is even, to the second when odd. -/
def specAltLane (lane1 lane2 : Lane) (j : ℕ) : Lane :=
  if j % 2 = 0 then lane1 else lane2

/-- Machine count of item `i` (0 past the end), truncated at 0. -/
def countAt (items : List BalancedOp) (i : ℕ) : ℕ :=
  ((items.get? i).map (fun it => it.count.toNat)).getD 0

/-- Raw (integer) machine count of item `i` (0 past the end). -/
def countZAt (items : List BalancedOp) (i : ℕ) : ℤ :=
  ((items.get? i).map BalancedOp.count).getD 0

/-- Operation of item `i`. -/
def opAt (items : List BalancedOp) (i : ℕ) : Operation :=
  ((items.get? i).map BalancedOp.operation).getD (createDummyOp "" "")

/-- Total machine count of the items before item `j`. -/
def totalCountBefore (items : List BalancedOp) (j : ℕ) : ℕ :=
  ∑ i ∈ Finset.range j, countAt items i

/-- Machine count placed into lane `L` by the items before item `j` under
per-operation alternation. -/
def laneCountIn (items : List BalancedOp) (lane1 lane2 : Lane) (L : Lane)
    (j : ℕ) : ℕ :=
  ∑ i ∈ Finset.range j, if specAltLane lane1 lane2 i = L then countAt items i else 0

/-- Follows the spec's words: start offset of operation `j`'s run — its lane's
cursor after each earlier operation in the same lane advanced it by
count × pitch. -/
def specAltStartX (items : List BalancedOp) (lane1 lane2 : Lane)
    (c : LaneCursors) (j : ℕ) : ℚ :=
  c.get (specAltLane lane1 lane2 j) +
    MACHINE_SPACING_X * laneCountIn items lane1 lane2 (specAltLane lane1 lane2 j) j

/-- Rows consumed by the assembly main operations before item `j`
(each operation consumes `ceil(count/3)` rows). -/
def asmRowsBefore (items : List BalancedOp) (j : ℕ) : ℤ :=
  ∑ i ∈ Finset.range j, ⌈(countZAt items i : ℚ) / 3⌉

/-- Follows the spec's words: start offset of assembly main operation `j`. -/
def asmStartX (items : List BalancedOp) (cursor : ℚ) (j : ℕ) : ℚ :=
  cursor + asmRowsBefore items j * MACHINE_SPACING_X

/-- Follows the spec's words: start offset of buttoning operation `j` in
lane D (strictly sequential placement). -/
def btnStartX (items : List BalancedOp) (cursor : ℚ) (j : ℕ) : ℚ :=
  cursor + MACHINE_SPACING_X * totalCountBefore items j

/-- Follows the spec's words: section keys in strictly first-seen input order. -/
def firstSeenKeys (items : List BalancedOp) : List String :=
  items.foldl (fun ks i => if sectionKey i ∈ ks then ks else ks ++ [sectionKey i]) []

/-- Follows the spec's words: the grouped sections are the keys in strictly
first-seen input order, each with the operations of that section in input
order. -/
def groupedBy (items : List BalancedOp) : List (String × List BalancedOp) :=
  (firstSeenKeys items).map (fun s => (s, items.filter (fun i => sectionKey i = s)))

/-- Two entities do not collide: they differ in lane or in along-line offset. -/
def distinctLaneX (a b : MachinePosition) : Prop :=
  ¬(a.lane = b.lane ∧ a.position.x = b.position.x)

/-- The machine-placement invariant: the machine-class entities placed so far
are pairwise collision-free, and each sits strictly before its lane's cursor. -/
def MachInv (L : List MachinePosition) (c : LaneCursors) : Prop :=
  (L.filter isMachineEntity).Pairwise distinctLaneX ∧
  ∀ e ∈ L, isMachineEntity e = true → e.position.x < c.get e.lane

/-! ## Concrete sample inputs (used by witnesses and counterexamples) -/

/-- A fixed uuid supply. -/
def uZero : ℕ → String := fun _ => ""

/-- A pressing machine: its lowercased type contains "press" but not "iron". -/
def opPress : Operation :=
  { op_no := "1", op_name := "press op", machine_type := "Press", smv := 1,
    sectionLabel := "Cuff" }

/-- A plain sewing machine. -/
def opSew : Operation :=
  { op_no := "1", op_name := "sew", machine_type := "SNLS", smv := 1,
    sectionLabel := "Cuff" }

/-- A second sewing operation (twice the work content). -/
def opSew2 : Operation :=
  { op_no := "2", op_name := "sew2", machine_type := "SNLS", smv := 2,
    sectionLabel := "Cuff" }

/-- One assembly main operation needing 3 machines. -/
def asmOp (num : String) : Operation :=
  { op_no := num, op_name := "assemble", machine_type := "SNLS", smv := 3,
    sectionLabel := "Assembly" }

def asmItem (num : String) : BalancedOp :=
  { operation := asmOp num, count := 3 }

/-- Three assembly main operations, each needing 3 machines. -/
def asmItems3 : List BalancedOp := [asmItem "1", asmItem "2", asmItem "3"]

/-- A balanced sewing operation needing one machine. -/
def itemSew : BalancedOp := { operation := opSew, count := 1 }

/-- A balanced sewing operation needing two machines. -/
def itemSew2 : BalancedOp := { operation := opSew2, count := 2 }

/-- A buttoning operation for the assembly section. -/
def opBtn : Operation :=
  { op_no := "9", op_name := "attach button", machine_type := "Button Stitch",
    smv := 2, sectionLabel := "Assembly" }

/-- A balanced buttoning operation needing two machines. -/
def itemBtn : BalancedOp := { operation := opBtn, count := 2 }

/-! ## Theorems -/

/-- **C1**: with `targetOutputPerDay > 0` and `workingMinutesPerDay > 0` the
capacity planner succeeds, preserves the operation list, and assigns each
operation `requiredCount = ceil(smv × target / working)` whenever `smv > 0`,
with `requiredCount ≥ 1` for every operation and exactly 1 for `smv = 0`. -/
theorem calculateMachineRequirements_correct
    (operations : List Operation) (targetOutput workingMinutes : ℚ)
    (hD : 0 < targetOutput) (hW : 0 < workingMinutes) :
    ∃ l, calculateMachineRequirements operations targetOutput workingMinutes =
        Except.ok l ∧
      l.map BalancedOp.operation = operations ∧
      ∀ b ∈ l, 1 ≤ b.count ∧
        (0 < b.operation.smv →
          b.count = ⌈b.operation.smv * targetOutput / workingMinutes⌉) ∧
        (b.operation.smv = 0 → b.count = 1) := by
  have key : calculateMachineRequirements operations targetOutput workingMinutes =
      Except.ok (operations.map fun op =>
        { operation := op, count := max 1 ⌈op.smv * targetOutput / workingMinutes⌉ }) := by
    unfold calculateMachineRequirements
    rw [if_neg]
    push_neg
    exact ⟨hD, hW⟩
  refine ⟨_, key, ?_, ?_⟩
  · rw [List.map_map]
    exact List.map_id operations
  · intro b hb
    simp only [List.mem_map] at hb
    obtain ⟨op, _, rfl⟩ := hb
    refine ⟨le_max_left _ _, ?_, ?_⟩
    · intro hs
      have hq : (0 : ℚ) < op.smv * targetOutput / workingMinutes := by positivity
      have h1 : 1 ≤ ⌈op.smv * targetOutput / workingMinutes⌉ :=
        Int.one_le_ceil_iff.mpr hq
      simpa using max_eq_right h1
    · intro hs
      show (1 : ℤ) ⊔ ⌈op.smv * targetOutput / workingMinutes⌉ = 1
      rw [show op.smv = 0 from hs]
      norm_num

/-- Witness for C1 at a concrete input. -/
theorem calculateMachineRequirements_correct_witness :
    ∃ l, calculateMachineRequirements [opSew] 480 480 = Except.ok l ∧
      l.map BalancedOp.operation = [opSew] ∧
      ∀ b ∈ l, 1 ≤ b.count ∧
        (0 < b.operation.smv → b.count = ⌈b.operation.smv * 480 / (480 : ℚ)⌉) ∧
        (b.operation.smv = 0 → b.count = 1) :=
  calculateMachineRequirements_correct [opSew] 480 480 (by norm_num) (by norm_num)

/-- **C7**: `generateLayout` fails with `InvalidDemand` exactly when the target
output or the working time is ≤ 0; the `Except.error` result carries no
entities, so the whole call aborts with no partial layout. -/
theorem generateLayout_invalidDemand_iff (u : ℕ → String)
    (rawOperations : List Operation) (targetOutput workingHours : ℚ) :
    generateLayout u rawOperations targetOutput workingHours =
        Except.error PlanError.InvalidDemand ↔
      targetOutput ≤ 0 ∨ workingHours ≤ 0 := by
  unfold generateLayout calculateMachineRequirements
  by_cases h : targetOutput ≤ 0 ∨ workingHours ≤ 0
  · simp [h, Except.map]
  · simp [h, Except.map]

/-- **C10**: every board built by `addBoard` has lane A exactly when its z
coordinate is negative and lane C otherwise, sits at height 2.5 with machine
type "Board" and sequence index −1; and the assembly section's central board,
the first entity the assembly branch emits, has z = 0 and is assigned lane C. -/
theorem board_lane_spec :
    (∀ (u : ℕ → String) (n : ℕ) (name : String) (xPos zPos : ℚ),
      (addBoard u n name xPos zPos).lane =
        (if zPos < 0 then Lane.A else Lane.C) ∧
      ((addBoard u n name xPos zPos).lane = Lane.A ↔ zPos < 0) ∧
      (addBoard u n name xPos zPos).position.y = 5/2 ∧
      (addBoard u n name xPos zPos).operation.machine_type = "Board" ∧
      (addBoard u n name xPos zPos).machineIndex = some (-1)) ∧
    (∀ (u : ℕ → String) (n : ℕ) (secName : String) (ops : List BalancedOp)
      (cursors : LaneCursors), ∃ b rest,
      (processAssemblySection u n secName ops cursors).1 = b :: rest ∧
      b.position.z = 0 ∧ b.lane = Lane.C ∧ b.position.y = 5/2 ∧
      b.operation.machine_type = "Board" ∧ b.machineIndex = some (-1)) := by
  constructor
  · intro u n name xPos zPos
    refine ⟨rfl, ?_, rfl, rfl, rfl⟩
    show (if zPos < 0 then Lane.A else Lane.C) = Lane.A ↔ zPos < 0
    split_ifs with h
    · simpa using h
    · simpa using h
  · intro u n secName ops cursors
    refine ⟨addBoard u n "Assembly"
      (max (max cursors.A cursors.B) (max cursors.C cursors.D) + SECTION_GAP_X) 0,
      _, rfl, rfl, ?_, rfl, rfl, rfl⟩
    show (if (0 : ℚ) < 0 then Lane.A else Lane.C) = Lane.C
    rw [if_neg (lt_irrefl 0)]

/-- **C5, counterexample**: a machine whose type indicates pressing (type
"Press") placed by `generateLayout` in lane A does *not* face the canonical
front: its yaw is the lane-A value "left" (the code only forces front for
types containing "iron" or "inspection"). The claim predicts front-facing
for pressing types. -/
theorem pressing_not_forced_front_cex :
    ∃ l, generateLayout uZero [opPress] 1 1 = Except.ok l ∧
      (l.get? 1).map (fun m =>
        (m.operation.machine_type, m.lane, m.machineIndex, m.rotation.y)) =
        some ("Press", Lane.A, some 0, ROT_FACE_LEFT) ∧
      ROT_FACE_LEFT ≠ ROT_FACE_FRONT := by
  have hplan : calculateMachineRequirements [opPress] 1 1 =
      Except.ok [{ operation := opPress, count := 1 }] := by
    norm_num [calculateMachineRequirements, opPress]
  have hlay : generateLayout uZero [opPress] 1 1 = Except.ok
      ((processSections uZero 0
        (groupBySection [{ operation := opPress, count := 1 }]) ⟨0,0,0,0⟩).1) := by
    unfold generateLayout
    rw [hplan]
    rfl
  have h1 : strIncludes (toLowerStr "Press") "iron" = false := by decide
  have h2 : strIncludes (toLowerStr "Press") "inspection" = false := by decide
  have h3 : isCDSection (toLowerStr "Cuff") = false := by decide
  have h4 : strIncludes (toLowerStr "Cuff") assemblySection = false := by decide
  have h5 : ("Cuff" = "") = False := by simp
  refine ⟨_, hlay, ?_, by norm_num [ROT_FACE_LEFT, ROT_FACE_FRONT]⟩
  norm_num [processSections, processPrepSection, placeOpsAlt, placeRun,
    addMachine, addBoard, groupBySection, sectionKey, opPress,
    prepLanes, LaneCursors.get, LaneCursors.set, List.range_succ, List.range_zero,
    SECTION_GAP_X, MACHINE_SPACING_X, ROT_FACE_LEFT, ROT_A_FACES_B,
    createDummyOp, h1, h2, h3, h4, h5]

/-! ### Helper lemmas about `addMachine` and the entity kinds -/

theorem addMachine_rotY_some (u : ℕ → String) (n : ℕ) (op : Operation)
    (lane : Lane) (xPos : ℚ) (countIdx : ℤ) (r : ℚ) (sectionName : Option String) :
    (addMachine u n op lane xPos countIdx (some r) sectionName).rotation.y = r := rfl

theorem addMachine_rotY_none (u : ℕ → String) (n : ℕ) (op : Operation)
    (lane : Lane) (xPos : ℚ) (countIdx : ℤ) (sectionName : Option String) :
    (addMachine u n op lane xPos countIdx none sectionName).rotation.y =
      if forcedFrontType op.machine_type then ROT_FACE_FRONT
      else specLaneYaw lane := by
  cases lane <;>
    simp [addMachine, forcedFrontType, specLaneYaw, ROT_A_FACES_B, ROT_B_FACES_A,
      ROT_C_FACES_D, ROT_D_FACES_C]

theorem addMachine_isMachineEntity (u : ℕ → String) (n : ℕ) (op : Operation)
    (lane : Lane) (xPos : ℚ) (k : ℕ) (forcedRot : Option ℚ)
    (sectionName : Option String) :
    isMachineEntity (addMachine u n op lane xPos k forcedRot sectionName) = true := by
  simp [isMachineEntity, addMachine]

theorem addBoard_not_machineEntity (u : ℕ → String) (n : ℕ) (name : String)
    (xPos zPos : ℚ) : isMachineEntity (addBoard u n name xPos zPos) = false := rfl

/-- Every entity emitted by `placeRun` is an `addMachine` with no forced
rotation and a nonnegative run index. -/
theorem placeRun_mem {u : ℕ → String} {n : ℕ} {op : Operation} {lane : Lane}
    {xPos : ℚ} {count : ℤ} {secName : String} {e : MachinePosition}
    (he : e ∈ placeRun u n op lane xPos count secName) :
    ∃ k : ℕ, k < count.toNat ∧
      e = addMachine u (n + k) op lane (xPos + MACHINE_SPACING_X * k) k none
        (some secName) := by
  simp only [placeRun, List.mem_map, List.mem_range] at he
  obtain ⟨k, hk, rfl⟩ := he
  exact ⟨k, hk, rfl⟩

/-- Every entity emitted by the alternating loop is an `addMachine` with no
forced rotation, a nonnegative run index, and section name `secName`. -/
theorem placeOpsAlt_mem {u : ℕ → String} {n : ℕ} {items : List BalancedOp}
    {lane1 lane2 : Lane} {cursors : LaneCursors} {secName : String}
    {e : MachinePosition}
    (he : e ∈ (placeOpsAlt u n items lane1 lane2 cursors secName).1) :
    ∃ (m : ℕ) (op : Operation) (lane : Lane) (x : ℚ) (k : ℕ),
      e = addMachine u m op lane x k none (some secName) := by
  induction items generalizing n lane1 lane2 cursors with
  | nil => simp [placeOpsAlt] at he
  | cons item rest ih =>
    simp only [placeOpsAlt, List.mem_append] at he
    rcases he with he | he
    · obtain ⟨k, _, rfl⟩ := placeRun_mem he
      exact ⟨_, _, _, _, _, rfl⟩
    · exact ih he

theorem addMachine_operation (u : ℕ → String) (n : ℕ) (op : Operation)
    (lane : Lane) (xPos : ℚ) (countIdx : ℤ) (forcedRot : Option ℚ)
    (sectionName : Option String) :
    (addMachine u n op lane xPos countIdx forcedRot sectionName).operation = op := rfl

theorem addMachine_lane (u : ℕ → String) (n : ℕ) (op : Operation)
    (lane : Lane) (xPos : ℚ) (countIdx : ℤ) (forcedRot : Option ℚ)
    (sectionName : Option String) :
    (addMachine u n op lane xPos countIdx forcedRot sectionName).lane = lane := rfl

/-- **C5, amended**: outside the assembly section, a machine-class entity
placed by `generateLayout`'s non-assembly branch faces the canonical front
exactly when its lowercased machine type contains "iron" or "inspection";
machines whose type indicates pressing (without "iron" in the string) are NOT
forced. All other types get the lane-determined yaw: A = "left", B = "right",
C = "right", D = "left". -/
theorem nonAssembly_yaw_spec (u : ℕ → String) (n : ℕ) (secName : String)
    (ops : List BalancedOp) (cursors : LaneCursors) :
    ((processPrepSection u n secName ops cursors).1.filter isMachineEntity).map
        (fun e => e.rotation.y) =
      ((processPrepSection u n secName ops cursors).1.filter isMachineEntity).map
        (fun e => if forcedFrontType e.operation.machine_type then ROT_FACE_FRONT
          else specLaneYaw e.lane) := by
  apply List.map_congr_left
  intro e he
  rw [List.mem_filter] at he
  obtain ⟨hmem, hmach⟩ := he
  simp only [processPrepSection, List.mem_cons, List.mem_append,
    List.not_mem_nil, or_false] at hmem
  rcases hmem with (rfl | hmem) | (rfl | rfl)
  · rw [addBoard_not_machineEntity] at hmach
    cases hmach
  · obtain ⟨m, op, lane, x, k, rfl⟩ := placeOpsAlt_mem hmem
    rw [addMachine_rotY_none, addMachine_operation, addMachine_lane]
  · simp [isMachineEntity] at hmach
  · simp [isMachineEntity] at hmach

theorem LaneCursors.get_set_same (c : LaneCursors) (l : Lane) (v : ℚ) :
    (c.set l v).get l = v := by
  cases l <;> rfl

theorem LaneCursors.get_set_pair₁ (c : LaneCursors) (l1 l2 : Lane) (v : ℚ) :
    ((c.set l1 v).set l2 v).get l1 = v := by
  cases l1 <;> cases l2 <;> rfl

theorem LaneCursors.get_set_pair₂ (c : LaneCursors) (l1 l2 : Lane) (v : ℚ) :
    ((c.set l1 v).set l2 v).get l2 = v := by
  cases l1 <;> cases l2 <;> rfl

/-- **C6, amended**: after a non-assembly section the branch appends exactly
two fixtures, first the inspection station and then — 3.5 units further along
the line — the material trolley, both anchored to the pair's inner lane
(A for AB, C for CD); both pair cursors then advance to `inspection.x + 2.5`,
which is past the inspection station but 1.0 unit *short* of the trolley's
along-line position (the claim's "each cursor ≥ trolley position" fails). -/
theorem prepSection_fixtures_spec (u : ℕ → String) (n : ℕ) (secName : String)
    (ops : List BalancedOp) (cursors : LaneCursors) :
    ∃ B M I T,
      (processPrepSection u n secName ops cursors).1 = B :: M ++ [I, T] ∧
      B.machineIndex = some (-1) ∧
      M.all (fun e => !e.isInspection && !e.isTrolley) = true ∧
      I.isInspection = true ∧ I.isTrolley = false ∧ I.machineIndex = none ∧
      T.isTrolley = true ∧ T.isInspection = false ∧ T.machineIndex = none ∧
      I.lane = (prepLanes (isCDSection (toLowerStr secName))).1 ∧
      T.lane = (prepLanes (isCDSection (toLowerStr secName))).1 ∧
      T.position.x = I.position.x + 7/2 ∧
      (processPrepSection u n secName ops cursors).2.1.get
          (prepLanes (isCDSection (toLowerStr secName))).1 =
        I.position.x + 5/2 ∧
      (processPrepSection u n secName ops cursors).2.1.get
          (prepLanes (isCDSection (toLowerStr secName))).2 =
        I.position.x + 5/2 ∧
      I.position.x < I.position.x + 5/2 ∧
      I.position.x + 5/2 < T.position.x := by
  refine ⟨_, _, _, _, rfl, rfl, ?_, rfl, rfl, rfl, rfl, rfl, rfl, rfl, rfl,
    rfl, ?_, ?_, ?_, ?_⟩
  · rw [List.all_eq_true]
    intro e he
    obtain ⟨m, op, lane, x, k, rfl⟩ := placeOpsAlt_mem he
    rfl
  · exact LaneCursors.get_set_pair₁ _ _ _ _
  · exact LaneCursors.get_set_pair₂ _ _ _ _
  · exact lt_add_of_pos_right _ (by norm_num)
  · exact add_lt_add_left (by norm_num) _

/-- **C6, counterexample**: for the concrete "Cuff" section with one sewing
operation, the trolley fixture sits at x = 10 but both pair cursors end at 9,
so the cursors have *not* advanced past the trolley (¬ 10 ≤ 9), contradicting
the claim that each cursor is at least the trolley's along-line position. -/
theorem prep_cursor_stops_short_of_trolley_cex :
    ((processPrepSection uZero 0 "Cuff" [itemSew] ⟨0, 0, 0, 0⟩).1.get? 3).map
        (fun t => (t.isTrolley, t.position.x)) = some (true, 10) ∧
    (processPrepSection uZero 0 "Cuff" [itemSew] ⟨0, 0, 0, 0⟩).2.1.A = 9 ∧
    (processPrepSection uZero 0 "Cuff" [itemSew] ⟨0, 0, 0, 0⟩).2.1.B = 9 ∧
    ¬ (10 : ℚ) ≤ 9 := by
  have h3 : isCDSection (toLowerStr "Cuff") = false := by decide
  refine ⟨?_, ?_, ?_, by norm_num⟩ <;>
    norm_num [processPrepSection, placeOpsAlt, placeRun, addMachine, addBoard,
      itemSew, opSew, prepLanes, LaneCursors.get, LaneCursors.set,
      List.range_succ, List.range_zero, SECTION_GAP_X, MACHINE_SPACING_X,
      createDummyOp, h3]

/-! ### The alternating placement loop: closed-form characterization -/

theorem LaneCursors.get_set (c : LaneCursors) (l L : Lane) (v : ℚ) :
    (c.set l v).get L = if L = l then v else c.get L := by
  cases l <;> cases L <;> simp [LaneCursors.get, LaneCursors.set]

theorem specAltLane_zero (l1 l2 : Lane) : specAltLane l1 l2 0 = l1 := rfl

theorem specAltLane_succ (l1 l2 : Lane) (j : ℕ) :
    specAltLane l1 l2 (j + 1) = specAltLane l2 l1 j := by
  rcases Nat.mod_two_eq_zero_or_one j with h | h <;>
    simp [specAltLane, Nat.add_mod, h]

theorem countAt_cons_succ (item : BalancedOp) (rest : List BalancedOp) (j : ℕ) :
    countAt (item :: rest) (j + 1) = countAt rest j := rfl

theorem opAt_cons_succ (item : BalancedOp) (rest : List BalancedOp) (j : ℕ) :
    opAt (item :: rest) (j + 1) = opAt rest j := rfl

theorem totalCountBefore_cons (item : BalancedOp) (rest : List BalancedOp) (j : ℕ) :
    totalCountBefore (item :: rest) (j + 1) =
      item.count.toNat + totalCountBefore rest j := by
  unfold totalCountBefore
  rw [Finset.sum_range_succ']
  simp only [countAt_cons_succ]
  rw [Nat.add_comm]
  rfl

theorem laneCountIn_cons (item : BalancedOp) (rest : List BalancedOp)
    (l1 l2 L : Lane) (j : ℕ) :
    laneCountIn (item :: rest) l1 l2 L (j + 1) =
      (if l1 = L then item.count.toNat else 0) + laneCountIn rest l2 l1 L j := by
  unfold laneCountIn
  rw [Finset.sum_range_succ', Nat.add_comm]
  congr 1
  apply Finset.sum_congr rfl
  intro i _
  rw [specAltLane_succ, countAt_cons_succ]

theorem specAltStartX_cons (item : BalancedOp) (rest : List BalancedOp)
    (l1 l2 : Lane) (c : LaneCursors) (j : ℕ) :
    specAltStartX (item :: rest) l1 l2 c (j + 1) =
      specAltStartX rest l2 l1
        (c.set l1 (c.get l1 + MACHINE_SPACING_X * item.count.toNat)) j := by
  unfold specAltStartX
  rw [specAltLane_succ, laneCountIn_cons, LaneCursors.get_set]
  rcases eq_or_ne (specAltLane l2 l1 j) l1 with h | h
  · rw [if_pos h.symm, if_pos h, h]
    push_cast
    ring
  · rw [if_neg (Ne.symm h), if_neg h]
    push_cast
    ring

theorem placeOpsAlt_closed (u : ℕ → String) (n : ℕ) (items : List BalancedOp)
    (l1 l2 : Lane) (cursors : LaneCursors) (secName : String) :
    (placeOpsAlt u n items l1 l2 cursors secName).1 =
      (List.range items.length).flatMap (fun j =>
        (List.range (countAt items j)).map (fun k =>
          addMachine u (n + totalCountBefore items j + k) (opAt items j)
            (specAltLane l1 l2 j)
            (specAltStartX items l1 l2 cursors j + MACHINE_SPACING_X * k)
            k none (some secName))) := by
  induction items generalizing n l1 l2 cursors with
  | nil => rfl
  | cons item rest ih =>
    simp only [placeOpsAlt, List.length_cons, List.range_succ_eq_map,
      List.flatMap_cons, List.flatMap_map]
    congr 1
    · unfold placeRun
      apply List.map_congr_left
      intro k _
      have e1 : n + totalCountBefore (item :: rest) 0 + k = n + k := by
        simp [totalCountBefore]
      have e2 : specAltStartX (item :: rest) l1 l2 cursors 0 = cursors.get l1 := by
        simp [specAltStartX, laneCountIn, specAltLane]
      rw [e1, e2]
      rfl
    · rw [ih]
      apply List.flatMap_congr
      intro j _
      apply List.map_congr_left
      intro k _
      have e1 : n + item.count.toNat + totalCountBefore rest j + k =
          n + totalCountBefore (item :: rest) (j + 1) + k := by
        rw [totalCountBefore_cons]
        omega
      rw [e1, ← opAt_cons_succ item rest j, ← specAltLane_succ,
        ← specAltStartX_cons]

theorem placeOpsAlt_cursors (u : ℕ → String) (n : ℕ) (items : List BalancedOp)
    (l1 l2 : Lane) (cursors : LaneCursors) (secName : String) (L : Lane) :
    (placeOpsAlt u n items l1 l2 cursors secName).2.1.get L =
      cursors.get L +
        MACHINE_SPACING_X * laneCountIn items l1 l2 L items.length := by
  induction items generalizing n l1 l2 cursors with
  | nil => simp [placeOpsAlt, laneCountIn]
  | cons item rest ih =>
    simp only [placeOpsAlt, List.length_cons]
    rw [ih, laneCountIn_cons, LaneCursors.get_set]
    rcases eq_or_ne L l1 with h | h
    · rw [if_pos h, if_pos h.symm]
      subst h
      push_cast
      ring
    · rw [if_neg h, if_neg (Ne.symm h)]
      push_cast
      ring

theorem placeOpsAlt_counter (u : ℕ → String) (n : ℕ) (items : List BalancedOp)
    (l1 l2 : Lane) (cursors : LaneCursors) (secName : String) :
    (placeOpsAlt u n items l1 l2 cursors secName).2.2 =
      n + totalCountBefore items items.length := by
  induction items generalizing n l1 l2 cursors with
  | nil => simp [placeOpsAlt, totalCountBefore]
  | cons item rest ih =>
    simp only [placeOpsAlt, List.length_cons]
    rw [ih, totalCountBefore_cons]
    omega

/-- **C3**: the non-assembly loop alternates lanes per *operation*: operation
`j`'s entire run of `countAt items j` machines goes to the pair's first lane
when `j` is even and to the second when odd; within the run machine `k` sits
at the run start plus `k` machine pitches and records `machineIndex = k`; the
run start is its lane's cursor, which has been advanced by count × pitch by
exactly the earlier same-lane operations (the other lane's cursor is untouched
by an operation); afterwards each lane's cursor has advanced by the total
count × pitch of the operations placed in it. -/
theorem placeOpsAlt_alternation_spec (u : ℕ → String) (n : ℕ)
    (items : List BalancedOp) (l1 l2 : Lane) (cursors : LaneCursors)
    (secName : String) :
    ((placeOpsAlt u n items l1 l2 cursors secName).1 =
      (List.range items.length).flatMap (fun j =>
        (List.range (countAt items j)).map (fun k =>
          addMachine u (n + totalCountBefore items j + k) (opAt items j)
            (specAltLane l1 l2 j)
            (specAltStartX items l1 l2 cursors j + MACHINE_SPACING_X * k)
            k none (some secName)))) ∧
    (∀ L : Lane, (placeOpsAlt u n items l1 l2 cursors secName).2.1.get L =
      cursors.get L +
        MACHINE_SPACING_X * laneCountIn items l1 l2 L items.length) ∧
    (placeOpsAlt u n items l1 l2 cursors secName).2.2 =
      n + totalCountBefore items items.length :=
  ⟨placeOpsAlt_closed u n items l1 l2 cursors secName,
   fun L => placeOpsAlt_cursors u n items l1 l2 cursors secName L,
   placeOpsAlt_counter u n items l1 l2 cursors secName⟩

/-! ### The assembly placement loops: closed-form characterization -/

theorem countZAt_cons_succ (item : BalancedOp) (rest : List BalancedOp) (j : ℕ) :
    countZAt (item :: rest) (j + 1) = countZAt rest j := rfl

theorem asmRowsBefore_cons (item : BalancedOp) (rest : List BalancedOp) (j : ℕ) :
    asmRowsBefore (item :: rest) (j + 1) =
      ⌈(item.count : ℚ) / 3⌉ + asmRowsBefore rest j := by
  unfold asmRowsBefore
  rw [Finset.sum_range_succ', Int.add_comm]
  rfl

theorem asmStartX_cons (item : BalancedOp) (rest : List BalancedOp)
    (cursor : ℚ) (j : ℕ) :
    asmStartX (item :: rest) cursor (j + 1) =
      asmStartX rest (cursor + ⌈(item.count : ℚ) / 3⌉ * MACHINE_SPACING_X) j := by
  unfold asmStartX
  rw [asmRowsBefore_cons]
  push_cast
  ring

theorem btnStartX_cons (item : BalancedOp) (rest : List BalancedOp)
    (cursor : ℚ) (j : ℕ) :
    btnStartX (item :: rest) cursor (j + 1) =
      btnStartX rest (cursor + MACHINE_SPACING_X * item.count.toNat) j := by
  unfold btnStartX
  rw [totalCountBefore_cons]
  push_cast
  ring

theorem placeAssemblyMain_closed (u : ℕ → String) (n : ℕ)
    (items : List BalancedOp) (cursor : ℚ) (secName : String) :
    (placeAssemblyMain u n items cursor secName).1 =
      (List.range items.length).flatMap (fun j =>
        (List.range (countAt items j)).map (fun k =>
          addMachine u (n + totalCountBefore items j + k) (opAt items j)
            (laneABC (k % 3))
            (asmStartX items cursor j + (k / 3 : ℕ) * MACHINE_SPACING_X)
            k (some ROT_FACE_FRONT) (some secName))) := by
  induction items generalizing n cursor with
  | nil => rfl
  | cons item rest ih =>
    simp only [placeAssemblyMain, List.length_cons, List.range_succ_eq_map,
      List.flatMap_cons, List.flatMap_map]
    congr 1
    · apply List.map_congr_left
      intro k _
      have e1 : n + totalCountBefore (item :: rest) 0 + k = n + k := by
        simp [totalCountBefore]
      have e2 : asmStartX (item :: rest) cursor 0 = cursor := by
        simp [asmStartX, asmRowsBefore]
      rw [e1, e2]
      rfl
    · rw [ih]
      apply List.flatMap_congr
      intro j _
      apply List.map_congr_left
      intro k _
      have e1 : n + item.count.toNat + totalCountBefore rest j + k =
          n + totalCountBefore (item :: rest) (j + 1) + k := by
        rw [totalCountBefore_cons]
        omega
      rw [e1, ← opAt_cons_succ item rest j, ← asmStartX_cons]

theorem placeAssemblyMain_cursor (u : ℕ → String) (n : ℕ)
    (items : List BalancedOp) (cursor : ℚ) (secName : String) :
    (placeAssemblyMain u n items cursor secName).2.1 =
      cursor + asmRowsBefore items items.length * MACHINE_SPACING_X := by
  induction items generalizing n cursor with
  | nil => simp [placeAssemblyMain, asmRowsBefore]
  | cons item rest ih =>
    simp only [placeAssemblyMain, List.length_cons]
    rw [ih, asmRowsBefore_cons]
    push_cast
    ring

theorem placeAssemblyMain_counter (u : ℕ → String) (n : ℕ)
    (items : List BalancedOp) (cursor : ℚ) (secName : String) :
    (placeAssemblyMain u n items cursor secName).2.2 =
      n + totalCountBefore items items.length := by
  induction items generalizing n cursor with
  | nil => simp [placeAssemblyMain, totalCountBefore]
  | cons item rest ih =>
    simp only [placeAssemblyMain, List.length_cons]
    rw [ih, totalCountBefore_cons]
    omega

theorem placeAssemblyButton_closed (u : ℕ → String) (n : ℕ)
    (items : List BalancedOp) (dCursor : ℚ) (secName : String) :
    (placeAssemblyButton u n items dCursor secName).1 =
      (List.range items.length).flatMap (fun j =>
        (List.range (countAt items j)).map (fun k =>
          addMachine u (n + totalCountBefore items j + k) (opAt items j)
            Lane.D (btnStartX items dCursor j + MACHINE_SPACING_X * k)
            k (some ROT_FACE_FRONT) (some secName))) := by
  induction items generalizing n dCursor with
  | nil => rfl
  | cons item rest ih =>
    simp only [placeAssemblyButton, List.length_cons, List.range_succ_eq_map,
      List.flatMap_cons, List.flatMap_map]
    congr 1
    · apply List.map_congr_left
      intro k _
      have e1 : n + totalCountBefore (item :: rest) 0 + k = n + k := by
        simp [totalCountBefore]
      have e2 : btnStartX (item :: rest) dCursor 0 = dCursor := by
        simp [btnStartX, totalCountBefore]
      rw [e1, e2]
      rfl
    · rw [ih]
      apply List.flatMap_congr
      intro j _
      apply List.map_congr_left
      intro k _
      have e1 : n + item.count.toNat + totalCountBefore rest j + k =
          n + totalCountBefore (item :: rest) (j + 1) + k := by
        rw [totalCountBefore_cons]
        omega
      rw [e1, ← opAt_cons_succ item rest j, ← btnStartX_cons]

theorem placeAssemblyButton_cursor (u : ℕ → String) (n : ℕ)
    (items : List BalancedOp) (dCursor : ℚ) (secName : String) :
    (placeAssemblyButton u n items dCursor secName).2.1 =
      dCursor + MACHINE_SPACING_X * totalCountBefore items items.length := by
  induction items generalizing n dCursor with
  | nil => simp [placeAssemblyButton, totalCountBefore]
  | cons item rest ih =>
    simp only [placeAssemblyButton, List.length_cons]
    rw [ih, totalCountBefore_cons]
    push_cast
    ring

theorem placeAssemblyButton_counter (u : ℕ → String) (n : ℕ)
    (items : List BalancedOp) (dCursor : ℚ) (secName : String) :
    (placeAssemblyButton u n items dCursor secName).2.2 =
      n + totalCountBefore items items.length := by
  induction items generalizing n dCursor with
  | nil => simp [placeAssemblyButton, totalCountBefore]
  | cons item rest ih =>
    simp only [placeAssemblyButton, List.length_cons]
    rw [ih, totalCountBefore_cons]
    omega

/-- **C4**: in the assembly branch, machine `k` of a non-buttoning operation
goes to lane `[A,B,C][k % 3]` at the operation's block start plus `k / 3` row
pitches, forced to face the canonical front and recording `machineIndex = k`;
every buttoning operation's machines go sequentially into lane D only, also
facing front; and concretely, 3 main operations of 3 machines each yield 9
machines distributed A/B/C per row with each operation's three machines at
one row (same x). -/
theorem assembly_placement_spec :
    (∀ (u : ℕ → String) (n : ℕ) (items : List BalancedOp) (cursor : ℚ)
      (secName : String),
      (placeAssemblyMain u n items cursor secName).1 =
        (List.range items.length).flatMap (fun j =>
          (List.range (countAt items j)).map (fun k =>
            addMachine u (n + totalCountBefore items j + k) (opAt items j)
              (laneABC (k % 3))
              (asmStartX items cursor j + (k / 3 : ℕ) * MACHINE_SPACING_X)
              k (some ROT_FACE_FRONT) (some secName)))) ∧
    (∀ (u : ℕ → String) (n : ℕ) (items : List BalancedOp) (cursor : ℚ)
      (secName : String),
      (placeAssemblyButton u n items cursor secName).1 =
        (List.range items.length).flatMap (fun j =>
          (List.range (countAt items j)).map (fun k =>
            addMachine u (n + totalCountBefore items j + k) (opAt items j)
              Lane.D (btnStartX items cursor j + MACHINE_SPACING_X * k)
              k (some ROT_FACE_FRONT) (some secName)))) ∧
    (placeAssemblyMain uZero 0 asmItems3 2 "Assembly").1.map
        (fun e => (e.lane, e.position.x, e.rotation.y)) =
      [(Lane.A, 2, ROT_FACE_FRONT), (Lane.B, 2, ROT_FACE_FRONT),
       (Lane.C, 2, ROT_FACE_FRONT), (Lane.A, 4, ROT_FACE_FRONT),
       (Lane.B, 4, ROT_FACE_FRONT), (Lane.C, 4, ROT_FACE_FRONT),
       (Lane.A, 6, ROT_FACE_FRONT), (Lane.B, 6, ROT_FACE_FRONT),
       (Lane.C, 6, ROT_FACE_FRONT)] := by
  refine ⟨placeAssemblyMain_closed, placeAssemblyButton_closed, ?_⟩
  have ht : ((3 : ℤ)).toNat = 3 := rfl
  norm_num [ht, placeAssemblyMain, addMachine, asmItems3, asmItem, asmOp,
    laneABC, List.range_succ, List.range_zero, MACHINE_SPACING_X]

/-! ### Cursor monotonicity -/

theorem LaneCursors.le_def (c1 c2 : LaneCursors) :
    LaneCursors.le c1 c2 ↔ ∀ L, c1.get L ≤ c2.get L := by
  constructor
  · rintro ⟨h1, h2, h3, h4⟩ L
    cases L <;> assumption
  · intro h
    exact ⟨h Lane.A, h Lane.B, h Lane.C, h Lane.D⟩

theorem LaneCursors.le_trans {c1 c2 c3 : LaneCursors}
    (h1 : LaneCursors.le c1 c2) (h2 : LaneCursors.le c2 c3) :
    LaneCursors.le c1 c3 := by
  rw [LaneCursors.le_def] at *
  intro L
  exact (h1 L).trans (h2 L)

theorem pairSet_mono (c : LaneCursors) (l1 l2 : Lane) (v : ℚ)
    (h1 : c.get l1 ≤ v) (h2 : c.get l2 ≤ v) :
    LaneCursors.le c ((c.set l1 v).set l2 v) := by
  rw [LaneCursors.le_def]
  intro L
  rw [LaneCursors.get_set, LaneCursors.get_set]
  split_ifs with ha hb
  · subst ha; exact h2
  · subst hb; exact h1
  · exact le_refl _

theorem placeOpsAlt_mono (u : ℕ → String) (n : ℕ) (items : List BalancedOp)
    (l1 l2 : Lane) (cursors : LaneCursors) (secName : String) :
    LaneCursors.le cursors (placeOpsAlt u n items l1 l2 cursors secName).2.1 := by
  rw [LaneCursors.le_def]
  intro L
  rw [placeOpsAlt_cursors, show MACHINE_SPACING_X = 2 from rfl]
  have h0 : (0 : ℚ) ≤ (laneCountIn items l1 l2 L items.length : ℚ) := by positivity
  linarith

theorem placeAssemblyButton_mono (u : ℕ → String) (n : ℕ)
    (items : List BalancedOp) (dCursor : ℚ) (secName : String) :
    dCursor ≤ (placeAssemblyButton u n items dCursor secName).2.1 := by
  rw [placeAssemblyButton_cursor, show MACHINE_SPACING_X = 2 from rfl]
  have h0 : (0 : ℚ) ≤ (totalCountBefore items items.length : ℚ) := by positivity
  linarith

theorem placeAssemblyMain_mono (u : ℕ → String) (n : ℕ)
    (items : List BalancedOp) (cursor : ℚ) (secName : String)
    (h : ∀ i ∈ items, 0 ≤ i.count) :
    cursor ≤ (placeAssemblyMain u n items cursor secName).2.1 := by
  rw [placeAssemblyMain_cursor]
  have hr : 0 ≤ asmRowsBefore items items.length := by
    unfold asmRowsBefore
    apply Finset.sum_nonneg
    intro i _
    apply Int.ceil_nonneg
    have : 0 ≤ countZAt items i := by
      unfold countZAt
      cases hg : items.get? i with
      | none => simp
      | some it => simpa using h it (List.get?_mem hg)
    positivity
  rw [show MACHINE_SPACING_X = 2 from rfl]
  have h0 : (0 : ℚ) ≤ (asmRowsBefore items items.length : ℚ) := by
    exact_mod_cast hr
  linarith

theorem pairSync_mono (c : LaneCursors) (l1 l2 : Lane) (g : ℚ) (hg : 0 ≤ g) :
    LaneCursors.le c
      ((c.set l1 (max (c.get l1) (c.get l2) + g)).set l2
        (max (c.get l1) (c.get l2) + g)) :=
  pairSet_mono _ _ _ _ ((le_max_left _ _).trans (by linarith))
    ((le_max_right _ _).trans (by linarith))

theorem le_max_add_left (a b g1 g2 : ℚ) (h1 : 0 ≤ g1) (h2 : 0 ≤ g2) :
    a ≤ max a b + g1 + g2 := by
  have := le_max_left a b
  linarith

theorem le_max_add_right (a b g1 g2 : ℚ) (h1 : 0 ≤ g1) (h2 : 0 ≤ g2) :
    b ≤ max a b + g1 + g2 := by
  have := le_max_right a b
  linarith

theorem processPrepSection_mono (u : ℕ → String) (n : ℕ) (secName : String)
    (ops : List BalancedOp) (cursors : LaneCursors) :
    LaneCursors.le cursors (processPrepSection u n secName ops cursors).2.1 := by
  have hsg : (0 : ℚ) ≤ SECTION_GAP_X := by norm_num [SECTION_GAP_X]
  simp only [processPrepSection]
  refine LaneCursors.le_trans (LaneCursors.le_trans (LaneCursors.le_trans
      (pairSync_mono cursors _ _ SECTION_GAP_X hsg)
      (pairSet_mono _ _ _ _ ?_ ?_))
      (placeOpsAlt_mono _ _ _ _ _ _ _))
    (pairSet_mono _ _ _ _ ?_ ?_)
  · rw [LaneCursors.get_set_pair₁]
    linarith
  · rw [LaneCursors.get_set_pair₂]
    linarith
  · exact le_max_add_left _ _ _ _ (by norm_num [SECTION_GAP_X]) (by norm_num)
  · exact le_max_add_right _ _ _ _ (by norm_num [SECTION_GAP_X]) (by norm_num)

theorem processAssemblySection_mono (u : ℕ → String) (n : ℕ) (secName : String)
    (ops : List BalancedOp) (cursors : LaneCursors) :
    LaneCursors.le cursors (processAssemblySection u n secName ops cursors).2.1 := by
  unfold processAssemblySection
  rw [LaneCursors.le_def]
  intro L
  have hm4 : cursors.get L ≤ max (max cursors.A cursors.B)
      (max cursors.C cursors.D) := by
    cases L <;> simp [LaneCursors.get, le_max_iff, le_refl, true_or, or_true]
  have hstart : max (max cursors.A cursors.B) (max cursors.C cursors.D) ≤
      max (max cursors.A cursors.B) (max cursors.C cursors.D) + SECTION_GAP_X := by
    norm_num [SECTION_GAP_X]
  have hbtn := placeAssemblyButton_mono u
    (placeAssemblyMain u (n + 1) (ops.filter (fun i => !(isButtonItem i)))
      (max (max cursors.A cursors.B) (max cursors.C cursors.D) + SECTION_GAP_X)
      secName).2.2
    (ops.filter isButtonItem)
    (max (max cursors.A cursors.B) (max cursors.C cursors.D) + SECTION_GAP_X)
    secName
  have hend := le_max_right
    (placeAssemblyMain u (n + 1) (ops.filter (fun i => !(isButtonItem i)))
      (max (max cursors.A cursors.B) (max cursors.C cursors.D) + SECTION_GAP_X)
      secName).2.1
    (placeAssemblyButton u
      (placeAssemblyMain u (n + 1) (ops.filter (fun i => !(isButtonItem i)))
        (max (max cursors.A cursors.B) (max cursors.C cursors.D) + SECTION_GAP_X)
        secName).2.2
      (ops.filter isButtonItem)
      (max (max cursors.A cursors.B) (max cursors.C cursors.D) + SECTION_GAP_X)
      secName).2.1
  have hL : ∀ v : ℚ, cursors.get L ≤ v →
      cursors.get L ≤ (LaneCursors.mk v v v v).get L := by
    intro v hv
    cases L <;> exact hv
  exact hL _ (hm4.trans (hstart.trans (hbtn.trans hend)))

theorem processSections_mono (u : ℕ → String) (n : ℕ)
    (sections : List (String × List BalancedOp)) (cursors : LaneCursors) :
    LaneCursors.le cursors (processSections u n sections cursors).2.1 := by
  induction sections generalizing n cursors with
  | nil =>
    rw [LaneCursors.le_def]
    intro L
    exact le_refl _
  | cons sec rest ih =>
    obtain ⟨secName, ops⟩ := sec
    simp only [processSections]
    refine LaneCursors.le_trans ?_ (ih _ _)
    by_cases h : strIncludes (toLowerStr secName) assemblySection
    · simp only [h, if_true]
      exact processAssemblySection_mono _ _ _ _ _
    · simp only [h, Bool.false_eq_true, if_false]
      exact processPrepSection_mono _ _ _ _ _

/-- **C9**: within one generation call, every lane cursor is monotonically
non-decreasing across each state-transforming step: the alternating
per-operation placement, the assembly buttoning loop, the assembly main loop
(for the nonnegative counts the planner produces), both section branches
(which internally chain the pair/four-way synchronization, board clearance,
per-operation advances, assembly resynchronization and post-section fixture
advance), and the whole section loop. -/
theorem cursors_monotone :
    (∀ (u : ℕ → String) (n : ℕ) (items : List BalancedOp) (l1 l2 : Lane)
      (c : LaneCursors) (s : String),
      LaneCursors.le c (placeOpsAlt u n items l1 l2 c s).2.1) ∧
    (∀ (u : ℕ → String) (n : ℕ) (items : List BalancedOp) (d : ℚ) (s : String),
      d ≤ (placeAssemblyButton u n items d s).2.1) ∧
    (∀ (u : ℕ → String) (n : ℕ) (items : List BalancedOp) (x : ℚ) (s : String),
      (∀ i ∈ items, 0 ≤ i.count) →
        x ≤ (placeAssemblyMain u n items x s).2.1) ∧
    (∀ (u : ℕ → String) (n : ℕ) (secName : String) (ops : List BalancedOp)
      (c : LaneCursors),
      LaneCursors.le c (processPrepSection u n secName ops c).2.1) ∧
    (∀ (u : ℕ → String) (n : ℕ) (secName : String) (ops : List BalancedOp)
      (c : LaneCursors),
      LaneCursors.le c (processAssemblySection u n secName ops c).2.1) ∧
    (∀ (u : ℕ → String) (n : ℕ) (sections : List (String × List BalancedOp))
      (c : LaneCursors),
      LaneCursors.le c (processSections u n sections c).2.1) :=
  ⟨placeOpsAlt_mono, placeAssemblyButton_mono,
   fun u n items x s h => placeAssemblyMain_mono u n items x s h,
   processPrepSection_mono, processAssemblySection_mono, processSections_mono⟩

/-- Witness for C9's hypothesis-bearing conjunct at a concrete input. -/
theorem cursors_monotone_witness :
    (∀ i ∈ asmItems3, 0 ≤ i.count) ∧
    (2 : ℚ) ≤ (placeAssemblyMain uZero 0 asmItems3 2 "Assembly").2.1 :=
  ⟨by decide, cursors_monotone.2.2.1 uZero 0 asmItems3 2 "Assembly" (by decide)⟩

/-! ### Determinism up to identifiers -/

theorem eraseId_addMachine (u u' : ℕ → String) (n n' : ℕ) (op : Operation)
    (lane : Lane) (xPos : ℚ) (countIdx : ℤ) (forcedRot : Option ℚ)
    (sectionName : Option String) :
    eraseId (addMachine u n op lane xPos countIdx forcedRot sectionName) =
      eraseId (addMachine u' n' op lane xPos countIdx forcedRot sectionName) := rfl

theorem eraseId_addBoard (u u' : ℕ → String) (n n' : ℕ) (name : String)
    (xPos zPos : ℚ) :
    eraseId (addBoard u n name xPos zPos) =
      eraseId (addBoard u' n' name xPos zPos) := rfl

theorem placeRun_eraseId (u u' : ℕ → String) (n n' : ℕ) (op : Operation)
    (lane : Lane) (xPos : ℚ) (count : ℤ) (secName : String) :
    (placeRun u n op lane xPos count secName).map eraseId =
      (placeRun u' n' op lane xPos count secName).map eraseId := by
  unfold placeRun
  rw [List.map_map, List.map_map]
  apply List.map_congr_left
  intro k _
  exact eraseId_addMachine u u' (n + k) (n' + k) op lane _ k none (some secName)

theorem placeOpsAlt_eraseId (u u' : ℕ → String) (n n' : ℕ)
    (items : List BalancedOp) (l1 l2 : Lane) (c : LaneCursors) (s : String) :
    (placeOpsAlt u n items l1 l2 c s).1.map eraseId =
        (placeOpsAlt u' n' items l1 l2 c s).1.map eraseId ∧
      (placeOpsAlt u n items l1 l2 c s).2.1 =
        (placeOpsAlt u' n' items l1 l2 c s).2.1 := by
  induction items generalizing n n' l1 l2 c with
  | nil => exact ⟨rfl, rfl⟩
  | cons item rest ih =>
    simp only [placeOpsAlt, List.map_append]
    exact ⟨by rw [placeRun_eraseId u u' n n', (ih _ _ _ _ _).1],
      (ih _ _ _ _ _).2⟩

theorem placeAssemblyMain_eraseId (u u' : ℕ → String) (n n' : ℕ)
    (items : List BalancedOp) (x : ℚ) (s : String) :
    (placeAssemblyMain u n items x s).1.map eraseId =
        (placeAssemblyMain u' n' items x s).1.map eraseId ∧
      (placeAssemblyMain u n items x s).2.1 =
        (placeAssemblyMain u' n' items x s).2.1 := by
  induction items generalizing n n' x with
  | nil => exact ⟨rfl, rfl⟩
  | cons item rest ih =>
    simp only [placeAssemblyMain, List.map_append, List.map_map]
    refine ⟨?_, (ih _ _ _).2⟩
    rw [(ih _ _ _).1]
    congr 1

theorem placeAssemblyButton_eraseId (u u' : ℕ → String) (n n' : ℕ)
    (items : List BalancedOp) (x : ℚ) (s : String) :
    (placeAssemblyButton u n items x s).1.map eraseId =
        (placeAssemblyButton u' n' items x s).1.map eraseId ∧
      (placeAssemblyButton u n items x s).2.1 =
        (placeAssemblyButton u' n' items x s).2.1 := by
  induction items generalizing n n' x with
  | nil => exact ⟨rfl, rfl⟩
  | cons item rest ih =>
    simp only [placeAssemblyButton, List.map_append, List.map_map]
    refine ⟨?_, (ih _ _ _).2⟩
    rw [(ih _ _ _).1]
    congr 1

theorem processPrepSection_eraseId (u u' : ℕ → String) (n n' : ℕ)
    (secName : String) (ops : List BalancedOp) (c : LaneCursors) :
    (processPrepSection u n secName ops c).1.map eraseId =
        (processPrepSection u' n' secName ops c).1.map eraseId ∧
      (processPrepSection u n secName ops c).2.1 =
        (processPrepSection u' n' secName ops c).2.1 := by
  have h := placeOpsAlt_eraseId u u' (n + 1) (n' + 1) ops
    (prepLanes (isCDSection (toLowerStr secName))).1
    (prepLanes (isCDSection (toLowerStr secName))).2
    ((((c.set (prepLanes (isCDSection (toLowerStr secName))).1
        (max (c.get (prepLanes (isCDSection (toLowerStr secName))).1)
          (c.get (prepLanes (isCDSection (toLowerStr secName))).2) +
          SECTION_GAP_X)).set
        (prepLanes (isCDSection (toLowerStr secName))).2
        (max (c.get (prepLanes (isCDSection (toLowerStr secName))).1)
          (c.get (prepLanes (isCDSection (toLowerStr secName))).2) +
          SECTION_GAP_X)).set
        (prepLanes (isCDSection (toLowerStr secName))).1
        (max (c.get (prepLanes (isCDSection (toLowerStr secName))).1)
          (c.get (prepLanes (isCDSection (toLowerStr secName))).2) +
          SECTION_GAP_X + 3/2)).set
        (prepLanes (isCDSection (toLowerStr secName))).2
        (max (c.get (prepLanes (isCDSection (toLowerStr secName))).1)
          (c.get (prepLanes (isCDSection (toLowerStr secName))).2) +
          SECTION_GAP_X + 3/2))
    secName
  simp only [processPrepSection, List.map_cons, List.map_append]
  rw [h.1, h.2]
  exact ⟨rfl, rfl⟩

theorem processAssemblySection_eraseId (u u' : ℕ → String) (n n' : ℕ)
    (secName : String) (ops : List BalancedOp) (c : LaneCursors) :
    (processAssemblySection u n secName ops c).1.map eraseId =
        (processAssemblySection u' n' secName ops c).1.map eraseId ∧
      (processAssemblySection u n secName ops c).2.1 =
        (processAssemblySection u' n' secName ops c).2.1 := by
  have hmain := placeAssemblyMain_eraseId u u' (n + 1) (n' + 1)
    (ops.filter (fun i => !(isButtonItem i)))
    (max (max c.A c.B) (max c.C c.D) + SECTION_GAP_X) secName
  have hbtn := placeAssemblyButton_eraseId u u'
    (placeAssemblyMain u (n + 1) (ops.filter (fun i => !(isButtonItem i)))
      (max (max c.A c.B) (max c.C c.D) + SECTION_GAP_X) secName).2.2
    (placeAssemblyMain u' (n' + 1) (ops.filter (fun i => !(isButtonItem i)))
      (max (max c.A c.B) (max c.C c.D) + SECTION_GAP_X) secName).2.2
    (ops.filter isButtonItem)
    (max (max c.A c.B) (max c.C c.D) + SECTION_GAP_X) secName
  simp only [processAssemblySection, List.map_cons, List.map_append]
  rw [hmain.1, hbtn.1, hmain.2, hbtn.2]
  exact ⟨rfl, rfl⟩

theorem processSections_eraseId (u u' : ℕ → String) (n n' : ℕ)
    (sections : List (String × List BalancedOp)) (c : LaneCursors) :
    (processSections u n sections c).1.map eraseId =
        (processSections u' n' sections c).1.map eraseId ∧
      (processSections u n sections c).2.1 =
        (processSections u' n' sections c).2.1 := by
  induction sections generalizing n n' c with
  | nil => exact ⟨rfl, rfl⟩
  | cons sec rest ih =>
    obtain ⟨secName, ops⟩ := sec
    by_cases h : strIncludes (toLowerStr secName) assemblySection
    · simp only [processSections, h, if_true, List.map_append]
      have hs := processAssemblySection_eraseId u u' n n' secName ops c
      rw [hs.1, hs.2]
      have := ih (processAssemblySection u n secName ops c).2.2
        (processAssemblySection u' n' secName ops c).2.2
        (processAssemblySection u' n' secName ops c).2.1
      rw [this.1, this.2]
      exact ⟨rfl, rfl⟩
    · simp only [processSections, h, Bool.false_eq_true, if_false,
        List.map_append]
      have hs := processPrepSection_eraseId u u' n n' secName ops c
      rw [hs.1, hs.2]
      have := ih (processPrepSection u n secName ops c).2.2
        (processPrepSection u' n' secName ops c).2.2
        (processPrepSection u' n' secName ops c).2.1
      rw [this.1, this.2]
      exact ⟨rfl, rfl⟩

/-! ### Grouping: first-seen order characterization -/

theorem mem_firstSeenKeys_aux (l : List BalancedOp) (ks : List String)
    (s : String) :
    (s ∈ l.foldl (fun ks i =>
        if sectionKey i ∈ ks then ks else ks ++ [sectionKey i]) ks) ↔
      s ∈ ks ∨ ∃ i ∈ l, sectionKey i = s := by
  induction l generalizing ks with
  | nil => simp
  | cons i rest ih =>
    simp only [List.foldl_cons]
    rw [ih]
    by_cases h : sectionKey i ∈ ks
    · rw [if_pos h]
      constructor
      · rintro (hs | ⟨j, hj, rfl⟩)
        · exact Or.inl hs
        · exact Or.inr ⟨j, List.mem_cons_of_mem _ hj, rfl⟩
      · rintro (hs | ⟨j, hj, rfl⟩)
        · exact Or.inl hs
        · rcases List.mem_cons.mp hj with rfl | hj
          · exact Or.inl h
          · exact Or.inr ⟨j, hj, rfl⟩
    · rw [if_neg h, List.mem_append, List.mem_singleton]
      constructor
      · rintro ((hs | rfl) | ⟨j, hj, rfl⟩)
        · exact Or.inl hs
        · exact Or.inr ⟨i, List.mem_cons_self _ _, rfl⟩
        · exact Or.inr ⟨j, List.mem_cons_of_mem _ hj, rfl⟩
      · rintro (hs | ⟨j, hj, rfl⟩)
        · exact Or.inl (Or.inl hs)
        · rcases List.mem_cons.mp hj with rfl | hj
          · exact Or.inl (Or.inr rfl)
          · exact Or.inr ⟨j, hj, rfl⟩

theorem mem_firstSeenKeys (l : List BalancedOp) (s : String) :
    s ∈ firstSeenKeys l ↔ ∃ i ∈ l, sectionKey i = s := by
  unfold firstSeenKeys
  rw [mem_firstSeenKeys_aux]
  simp

theorem firstSeenKeys_append_single (pref : List BalancedOp) (item : BalancedOp) :
    firstSeenKeys (pref ++ [item]) =
      if sectionKey item ∈ firstSeenKeys pref then firstSeenKeys pref
      else firstSeenKeys pref ++ [sectionKey item] := by
  unfold firstSeenKeys
  rw [List.foldl_append]
  rfl

theorem groupedBy_step (pref : List BalancedOp) (item : BalancedOp) :
    (if (groupedBy pref).any (fun p => p.1 = sectionKey item) then
        (groupedBy pref).map (fun p =>
          if p.1 = sectionKey item then (p.1, p.2 ++ [item]) else p)
      else groupedBy pref ++ [(sectionKey item, [item])]) =
      groupedBy (pref ++ [item]) := by
  have hany : (groupedBy pref).any (fun p => p.1 = sectionKey item) = true ↔
      sectionKey item ∈ firstSeenKeys pref := by
    unfold groupedBy
    simp only [List.any_eq_true, decide_eq_true_eq]
    constructor
    · rintro ⟨x, hx, hx1⟩
      obtain ⟨sKey, hsKey, rfl⟩ := List.mem_map.mp hx
      exact hx1 ▸ hsKey
    · intro hx
      exact ⟨(sectionKey item,
          pref.filter (fun i => sectionKey i = sectionKey item)),
        List.mem_map.mpr ⟨_, hx, rfl⟩, rfl⟩
  by_cases h : sectionKey item ∈ firstSeenKeys pref
  · rw [if_pos (hany.mpr h)]
    unfold groupedBy
    rw [firstSeenKeys_append_single, if_pos h, List.map_map]
    apply List.map_congr_left
    intro s _
    by_cases hseq : s = sectionKey item
    · simp [Function.comp, hseq, List.filter_append]
    · have : ¬ (sectionKey item = s) := fun heq => hseq heq.symm
      simp [Function.comp, hseq, List.filter_append, this]
  · rw [if_neg (fun hc => h (hany.mp hc))]
    unfold groupedBy
    rw [firstSeenKeys_append_single, if_neg h, List.map_append]
    congr 1
    · apply List.map_congr_left
      intro s hs
      have hneq : ¬ (sectionKey item = s) := by
        intro heq
        exact h (heq ▸ hs)
      simp [List.filter_append, hneq]
    · have hfil : pref.filter (fun i => sectionKey i = sectionKey item) = [] := by
        rw [List.filter_eq_nil_iff]
        intro a ha hk
        exact h ((mem_firstSeenKeys pref (sectionKey item)).mpr
          ⟨a, ha, by simpa using hk⟩)
      simp [List.filter_append, hfil]

theorem groupBySection_eq_aux (items pref : List BalancedOp) :
    items.foldl (fun acc item =>
      let sec := sectionKey item
      if acc.any (fun p => p.1 = sec) then
        acc.map (fun p => if p.1 = sec then (p.1, p.2 ++ [item]) else p)
      else acc ++ [(sec, [item])]) (groupedBy pref) = groupedBy (pref ++ items) := by
  induction items generalizing pref with
  | nil => simp
  | cons item rest ih =>
    simp only [List.foldl_cons]
    rw [groupedBy_step, ih]
    rw [List.append_assoc, List.singleton_append]

theorem groupBySection_eq (items : List BalancedOp) :
    groupBySection items = groupedBy items :=
  groupBySection_eq_aux items []

/-- **C8**: `generateLayout` is deterministic up to identifiers — two calls
that differ only in the uuid supply agree, after erasing the `id` field, on
every entity (operation, lane, position, rotation, section, sequence index
and fixture flags), entity by entity; and the iteration order is strictly
first-seen input order: the grouping equals the first-seen section keys, each
paired with that section's operations in input order. -/
theorem generateLayout_deterministic :
    (∀ (u1 u2 : ℕ → String) (rawOperations : List Operation)
      (targetOutput workingHours : ℚ),
      (generateLayout u1 rawOperations targetOutput workingHours).map
          (List.map eraseId) =
        (generateLayout u2 rawOperations targetOutput workingHours).map
          (List.map eraseId)) ∧
    (∀ items : List BalancedOp, groupBySection items = groupedBy items) := by
  refine ⟨?_, groupBySection_eq⟩
  intro u1 u2 rawOperations targetOutput workingHours
  unfold generateLayout
  cases calculateMachineRequirements rawOperations targetOutput workingHours with
  | error e => rfl
  | ok l =>
    simp only [Except.map]
    exact congrArg Except.ok
      (processSections_eraseId u1 u2 0 0 (groupBySection l)
        { A := 0, B := 0, C := 0, D := 0 }).1

/-! ### No two machine-class entities share (lane, position.x) -/

theorem addMachine_posX (u : ℕ → String) (n : ℕ) (op : Operation)
    (lane : Lane) (xPos : ℚ) (countIdx : ℤ) (forcedRot : Option ℚ)
    (sectionName : Option String) :
    (addMachine u n op lane xPos countIdx forcedRot sectionName).position.x =
      xPos := rfl

theorem placeRun_facts {u : ℕ → String} {n : ℕ} {op : Operation} {lane : Lane}
    {xPos : ℚ} {count : ℤ} {secName : String} {e : MachinePosition}
    (he : e ∈ placeRun u n op lane xPos count secName) :
    isMachineEntity e = true ∧ e.lane = lane ∧ xPos ≤ e.position.x ∧
      e.position.x + MACHINE_SPACING_X ≤
        xPos + MACHINE_SPACING_X * count.toNat := by
  obtain ⟨k, hk, rfl⟩ := placeRun_mem he
  refine ⟨addMachine_isMachineEntity _ _ _ _ _ _ _ _, rfl, ?_, ?_⟩
  · rw [addMachine_posX, show MACHINE_SPACING_X = 2 from rfl]
    have h0 : (0 : ℚ) ≤ (k : ℚ) := by positivity
    linarith
  · rw [addMachine_posX, show MACHINE_SPACING_X = 2 from rfl]
    have hk1 : (k : ℚ) + 1 ≤ (count.toNat : ℚ) := by exact_mod_cast hk
    linarith

theorem placeRun_pairwise (u : ℕ → String) (n : ℕ) (op : Operation)
    (lane : Lane) (xPos : ℚ) (count : ℤ) (secName : String) :
    (placeRun u n op lane xPos count secName).Pairwise distinctLaneX := by
  unfold placeRun
  rw [List.pairwise_map]
  apply (List.pairwise_lt_range count.toNat).imp
  intro a b hab
  rintro ⟨_, hx⟩
  rw [addMachine_posX, addMachine_posX, show MACHINE_SPACING_X = 2 from rfl] at hx
  have hcast : (a : ℚ) = b := by linarith
  have : a = b := by exact_mod_cast hcast
  omega

theorem MachInv.mono {L : List MachinePosition} {c c' : LaneCursors}
    (h : MachInv L c) (hle : LaneCursors.le c c') : MachInv L c' :=
  ⟨h.1, fun e he hm =>
    lt_of_lt_of_le (h.2 e he hm) (((LaneCursors.le_def c c').mp hle) e.lane)⟩

theorem MachInv.append_nonmachine {L : List MachinePosition} {c : LaneCursors}
    (h : MachInv L c) (es : List MachinePosition)
    (hes : ∀ e ∈ es, isMachineEntity e = false) : MachInv (L ++ es) c := by
  constructor
  · rw [List.filter_append]
    have hnil : es.filter isMachineEntity = [] := by
      rw [List.filter_eq_nil_iff]
      intro a ha
      simp [hes a ha]
    rw [hnil, List.append_nil]
    exact h.1
  · intro e he hm
    rcases List.mem_append.mp he with h1 | h2
    · exact h.2 e h1 hm
    · rw [hes e h2] at hm
      cases hm

theorem get_le_set_advance (c : LaneCursors) (l1 L : Lane) (d : ℚ)
    (hd : 0 ≤ d) : c.get L ≤ (c.set l1 (c.get l1 + d)).get L := by
  rw [LaneCursors.get_set]
  split_ifs with h
  · subst h
    linarith
  · exact le_refl _

theorem placeOpsAlt_inv (u : ℕ → String) (n : ℕ) (items : List BalancedOp)
    (l1 l2 : Lane) (c : LaneCursors) (s : String) (L : List MachinePosition)
    (h : MachInv L c) :
    MachInv (L ++ (placeOpsAlt u n items l1 l2 c s).1)
      (placeOpsAlt u n items l1 l2 c s).2.1 := by
  induction items generalizing n l1 l2 c L with
  | nil => simpa [placeOpsAlt] using h
  | cons item rest ih =>
    simp only [placeOpsAlt]
    rw [← List.append_assoc]
    apply ih
    constructor
    · rw [List.filter_append, List.pairwise_append]
      refine ⟨h.1, ?_, ?_⟩
      · rw [List.filter_eq_self.mpr (fun e he => (placeRun_facts he).1)]
        exact placeRun_pairwise u n item.operation l1 (c.get l1) item.count s
      · intro a ha b hb
        rw [List.mem_filter] at ha hb
        rintro ⟨hl, hx⟩
        have hbf := placeRun_facts hb.1
        have hax := h.2 a ha.1 ha.2
        rw [hl, hbf.2.1] at hax
        have hlt : a.position.x < b.position.x := lt_of_lt_of_le hax hbf.2.2.1
        exact absurd hx (ne_of_lt hlt)
    · intro e he hm
      rcases List.mem_append.mp he with h1 | h2
      · exact lt_of_lt_of_le (h.2 e h1 hm)
          (get_le_set_advance c l1 e.lane _ (by
            have h0 : (0 : ℚ) ≤ (item.count.toNat : ℚ) := by positivity
            rw [show MACHINE_SPACING_X = 2 from rfl]
            linarith))
      · have hf := placeRun_facts h2
        rw [hf.2.1, LaneCursors.get_set_same]
        have hb := hf.2.2.2
        rw [show MACHINE_SPACING_X = 2 from rfl] at hb
        rw [show MACHINE_SPACING_X = 2 from rfl]
        linarith

theorem laneABC_ne_D (m : ℕ) : laneABC m ≠ Lane.D := by
  unfold laneABC
  split_ifs <;> simp

theorem laneABC_inj {m m' : ℕ} (h : m < 3) (h' : m' < 3)
    (heq : laneABC m = laneABC m') : m = m' := by
  interval_cases m <;> interval_cases m' <;> simp_all [laneABC]

theorem natDiv3_lt_ceil {k : ℕ} {count : ℤ} (hc : 0 ≤ count)
    (hk : k < count.toNat) : ((k / 3 : ℕ) : ℤ) < ⌈(count : ℚ) / 3⌉ := by
  have h1 : k / 3 * 3 ≤ k := Nat.div_mul_le_self k 3
  have h2 : (count : ℚ) / 3 ≤ (⌈(count : ℚ) / 3⌉ : ℚ) := Int.le_ceil _
  have h3 : count ≤ 3 * ⌈(count : ℚ) / 3⌉ := by
    rw [div_le_iff (by norm_num : (0 : ℚ) < 3)] at h2
    exact_mod_cast (by linarith : (count : ℚ) ≤ 3 * (⌈(count : ℚ) / 3⌉ : ℚ))
  omega

theorem ceil_div3_nonneg {count : ℤ} (hc : 0 ≤ count) :
    0 ≤ ⌈(count : ℚ) / 3⌉ := by
  apply Int.ceil_nonneg
  positivity

theorem placeAssemblyMain_inv (u : ℕ → String) (n : ℕ)
    (items : List BalancedOp) (x : ℚ) (s : String) (L : List MachinePosition)
    (hcnt : ∀ i ∈ items, 0 ≤ i.count)
    (hpw : (L.filter isMachineEntity).Pairwise distinctLaneX)
    (hb : ∀ e ∈ L, isMachineEntity e = true → e.position.x < x) :
    ((L ++ (placeAssemblyMain u n items x s).1).filter
        isMachineEntity).Pairwise distinctLaneX ∧
    (∀ e ∈ L ++ (placeAssemblyMain u n items x s).1,
      isMachineEntity e = true →
        e.position.x < (placeAssemblyMain u n items x s).2.1) ∧
    (∀ e ∈ (placeAssemblyMain u n items x s).1, e.lane ≠ Lane.D) := by
  induction items generalizing n x L with
  | nil =>
    refine ⟨?_, ?_, ?_⟩ <;> simp only [placeAssemblyMain, List.append_nil]
    · exact hpw
    · exact hb
    · simp
  | cons item rest ih =>
    have hc0 : 0 ≤ item.count := hcnt item (List.mem_cons_self _ _)
    have hrows : 0 ≤ ⌈(item.count : ℚ) / 3⌉ := ceil_div3_nonneg hc0
    set run := (List.range item.count.toNat).map (fun k =>
        addMachine u (n + k) item.operation (laneABC (k % 3))
          (x + (k / 3 : ℕ) * MACHINE_SPACING_X) k (some ROT_FACE_FRONT)
          (some s)) with hrundef
    have hrun : ∀ e ∈ run,
        isMachineEntity e = true ∧ e.lane ≠ Lane.D ∧ x ≤ e.position.x ∧
          e.position.x < x + ⌈(item.count : ℚ) / 3⌉ * MACHINE_SPACING_X := by
      intro e he
      rw [hrundef] at he
      simp only [List.mem_map, List.mem_range] at he
      obtain ⟨k, hk, rfl⟩ := he
      refine ⟨addMachine_isMachineEntity _ _ _ _ _ _ _ _, laneABC_ne_D _, ?_, ?_⟩
      · rw [addMachine_posX, show MACHINE_SPACING_X = 2 from rfl]
        have h0 : (0 : ℚ) ≤ ((k / 3 : ℕ) : ℚ) := by positivity
        linarith
      · rw [addMachine_posX, show MACHINE_SPACING_X = 2 from rfl]
        have hlt := natDiv3_lt_ceil hc0 hk
        have hlt1 : ((k / 3 : ℕ) : ℤ) + 1 ≤ ⌈(item.count : ℚ) / 3⌉ := hlt
        have hlt2 : ((k / 3 + 1 : ℕ) : ℤ) ≤ ⌈(item.count : ℚ) / 3⌉ := by
          exact_mod_cast hlt1
        have hq : ((((k / 3 + 1 : ℕ) : ℤ)) : ℚ) ≤
            ((⌈(item.count : ℚ) / 3⌉ : ℤ) : ℚ) := Int.cast_le.mpr hlt2
        rw [Int.cast_natCast, Nat.cast_add, Nat.cast_one] at hq
        have hltq : ((k / 3 : ℕ) : ℚ) + 1 ≤ (⌈(item.count : ℚ) / 3⌉ : ℚ) := hq
        linarith
    have hrunpw : run.Pairwise distinctLaneX := by
      rw [hrundef, List.pairwise_map]
      apply (List.pairwise_lt_range item.count.toNat).imp
      intro a b hab
      rintro ⟨hl, hx⟩
      rw [addMachine_lane, addMachine_lane] at hl
      rw [addMachine_posX, addMachine_posX,
        show MACHINE_SPACING_X = 2 from rfl] at hx
      have hmod : a % 3 = b % 3 :=
        laneABC_inj (Nat.mod_lt _ (by norm_num)) (Nat.mod_lt _ (by norm_num)) hl
      have hdiv : ((a / 3 : ℕ) : ℚ) = ((b / 3 : ℕ) : ℚ) := by linarith
      have hdiv2 : a / 3 = b / 3 := by exact_mod_cast hdiv
      omega
    have hpw2 : ((L ++ run).filter isMachineEntity).Pairwise distinctLaneX := by
      rw [List.filter_append, List.pairwise_append]
      refine ⟨hpw, ?_, ?_⟩
      · rw [List.filter_eq_self.mpr (fun e he => (hrun e he).1)]
        exact hrunpw
      · intro a ha b hb2
        rw [List.mem_filter] at ha hb2
        rintro ⟨_, hx⟩
        have hab := hb a ha.1 ha.2
        have hbf := hrun b hb2.1
        exact absurd hx (ne_of_lt (lt_of_lt_of_le hab hbf.2.2.1))
    have hb2 : ∀ e ∈ L ++ run, isMachineEntity e = true →
        e.position.x < x + ⌈(item.count : ℚ) / 3⌉ * MACHINE_SPACING_X := by
      intro e he hm
      rcases List.mem_append.mp he with h1 | h2
      · have h3 := hb e h1 hm
        have h0 : (0 : ℚ) ≤ (⌈(item.count : ℚ) / 3⌉ : ℚ) * MACHINE_SPACING_X := by
          rw [show MACHINE_SPACING_X = 2 from rfl]
          have h4 : (0 : ℚ) ≤ (⌈(item.count : ℚ) / 3⌉ : ℚ) := by
            exact_mod_cast hrows
          linarith
        linarith
      · exact (hrun e h2).2.2.2
    obtain ⟨ihpw, ihb, ihD⟩ := ih (n + item.count.toNat)
      (x + ⌈(item.count : ℚ) / 3⌉ * MACHINE_SPACING_X) (L ++ run)
      (fun i hi => hcnt i (List.mem_cons_of_mem _ hi)) hpw2 hb2
    simp only [placeAssemblyMain]
    rw [← hrundef]
    refine ⟨?_, ?_, ?_⟩
    · rw [← List.append_assoc]
      exact ihpw
    · intro e he hm
      rw [← List.append_assoc] at he
      exact ihb e he hm
    · intro e he
      rcases List.mem_append.mp he with h1 | h2
      · exact (hrun e h1).2.1
      · exact ihD e h2

theorem placeAssemblyButton_inv (u : ℕ → String) (n : ℕ)
    (items : List BalancedOp) (d : ℚ) (s : String) (L : List MachinePosition)
    (hpw : (L.filter isMachineEntity).Pairwise distinctLaneX)
    (hbD : ∀ e ∈ L, isMachineEntity e = true → e.lane = Lane.D →
      e.position.x < d) :
    ((L ++ (placeAssemblyButton u n items d s).1).filter
        isMachineEntity).Pairwise distinctLaneX ∧
    (∀ e ∈ L ++ (placeAssemblyButton u n items d s).1,
      isMachineEntity e = true → e.lane = Lane.D →
        e.position.x < (placeAssemblyButton u n items d s).2.1) ∧
    (∀ e ∈ (placeAssemblyButton u n items d s).1, e.lane = Lane.D) := by
  induction items generalizing n d L with
  | nil =>
    refine ⟨?_, ?_, ?_⟩ <;> simp only [placeAssemblyButton, List.append_nil]
    · exact hpw
    · exact hbD
    · simp
  | cons item rest ih =>
    set run := (List.range item.count.toNat).map (fun k =>
        addMachine u (n + k) item.operation Lane.D
          (d + MACHINE_SPACING_X * k) k (some ROT_FACE_FRONT) (some s))
      with hrundef
    have hrun : ∀ e ∈ run,
        isMachineEntity e = true ∧ e.lane = Lane.D ∧ d ≤ e.position.x ∧
          e.position.x < d + MACHINE_SPACING_X * item.count.toNat := by
      intro e he
      rw [hrundef] at he
      simp only [List.mem_map, List.mem_range] at he
      obtain ⟨k, hk, rfl⟩ := he
      refine ⟨addMachine_isMachineEntity _ _ _ _ _ _ _ _, rfl, ?_, ?_⟩
      · rw [addMachine_posX, show MACHINE_SPACING_X = 2 from rfl]
        have h0 : (0 : ℚ) ≤ (k : ℚ) := by positivity
        linarith
      · rw [addMachine_posX, show MACHINE_SPACING_X = 2 from rfl]
        have hk1 : (k : ℚ) + 1 ≤ (item.count.toNat : ℚ) := by exact_mod_cast hk
        linarith
    have hrunpw : run.Pairwise distinctLaneX := by
      rw [hrundef, List.pairwise_map]
      apply (List.pairwise_lt_range item.count.toNat).imp
      intro a b hab
      rintro ⟨_, hx⟩
      rw [addMachine_posX, addMachine_posX,
        show MACHINE_SPACING_X = 2 from rfl] at hx
      have hcast : (a : ℚ) = b := by linarith
      have : a = b := by exact_mod_cast hcast
      omega
    have hpw2 : ((L ++ run).filter isMachineEntity).Pairwise distinctLaneX := by
      rw [List.filter_append, List.pairwise_append]
      refine ⟨hpw, ?_, ?_⟩
      · rw [List.filter_eq_self.mpr (fun e he => (hrun e he).1)]
        exact hrunpw
      · intro a ha b hb2
        rw [List.mem_filter] at ha hb2
        rintro ⟨hl, hx⟩
        have hbf := hrun b hb2.1
        have hab := hbD a ha.1 ha.2 (hl.trans hbf.2.1)
        exact absurd hx (ne_of_lt (lt_of_lt_of_le hab hbf.2.2.1))
    have hb2 : ∀ e ∈ L ++ run, isMachineEntity e = true → e.lane = Lane.D →
        e.position.x < d + MACHINE_SPACING_X * item.count.toNat := by
      intro e he hm hD
      rcases List.mem_append.mp he with h1 | h2
      · have h3 := hbD e h1 hm hD
        have h0 : (0 : ℚ) ≤ MACHINE_SPACING_X * (item.count.toNat : ℚ) := by
          rw [show MACHINE_SPACING_X = 2 from rfl]
          have h4 : (0 : ℚ) ≤ (item.count.toNat : ℚ) := by positivity
          linarith
        linarith
      · exact (hrun e h2).2.2.2
    obtain ⟨ihpw, ihb, ihD⟩ := ih (n + item.count.toNat)
      (d + MACHINE_SPACING_X * item.count.toNat) (L ++ run) hpw2 hb2
    simp only [placeAssemblyButton]
    rw [← hrundef]
    refine ⟨?_, ?_, ?_⟩
    · rw [← List.append_assoc]
      exact ihpw
    · intro e he hm hD
      rw [← List.append_assoc] at he
      exact ihb e he hm hD
    · intro e he
      rcases List.mem_append.mp he with h1 | h2
      · exact (hrun e h1).2.1
      · exact ihD e h2

theorem lanecursors_mk_get (v : ℚ) (L : Lane) :
    (LaneCursors.mk v v v v).get L = v := by
  cases L <;> rfl

theorem processPrepSection_inv (u : ℕ → String) (n : ℕ) (secName : String)
    (ops : List BalancedOp) (c : LaneCursors) (L : List MachinePosition)
    (h : MachInv L c) :
    MachInv (L ++ (processPrepSection u n secName ops c).1)
      (processPrepSection u n secName ops c).2.1 := by
  have hsg : (0 : ℚ) ≤ SECTION_GAP_X := by norm_num [SECTION_GAP_X]
  simp only [processPrepSection]
  set inner := (prepLanes (isCDSection (toLowerStr secName))).1 with hinner
  set outer := (prepLanes (isCDSection (toLowerStr secName))).2 with houter
  set startX := max (c.get inner) (c.get outer) + SECTION_GAP_X with hstartX
  set c1 := (c.set inner startX).set outer startX with hc1
  set c2 := (c1.set inner (startX + 3 / 2)).set outer (startX + 3 / 2) with hc2
  set placed := placeOpsAlt u (n + 1) ops inner outer c2 secName with hplaced
  have m1 : LaneCursors.le c c1 := pairSync_mono c inner outer SECTION_GAP_X hsg
  have m2 : LaneCursors.le c1 c2 := by
    apply pairSet_mono
    · rw [hc1, LaneCursors.get_set_pair₁]
      linarith
    · rw [hc1, LaneCursors.get_set_pair₂]
      linarith
  have h1 : MachInv (L ++ [addBoard u n secName startX
      (if isCDSection (toLowerStr secName) then LANE_Z_C else LANE_Z_A)]) c2 :=
    (h.mono (LaneCursors.le_trans m1 m2)).append_nonmachine _ (by
      intro e he
      rw [List.mem_singleton] at he
      subst he
      exact addBoard_not_machineEntity _ _ _ _ _)
  have h2 := placeOpsAlt_inv u (n + 1) ops inner outer c2 secName _ h1
  rw [← hplaced] at h2
  have m3 : LaneCursors.le placed.2.1
      ((placed.2.1.set inner
        (max (placed.2.1.get inner) (placed.2.1.get outer) +
          SECTION_GAP_X / 2 + 5 / 2)).set outer
        (max (placed.2.1.get inner) (placed.2.1.get outer) +
          SECTION_GAP_X / 2 + 5 / 2)) := by
    apply pairSet_mono
    · exact le_max_add_left _ _ _ _ (by norm_num [SECTION_GAP_X]) (by norm_num)
    · exact le_max_add_right _ _ _ _ (by norm_num [SECTION_GAP_X]) (by norm_num)
  rw [show ∀ (b : MachinePosition) (M F : List MachinePosition),
      L ++ (b :: M ++ F) = ((L ++ [b]) ++ M) ++ F from by
    intro b M F
    simp]
  apply MachInv.append_nonmachine
  · exact h2.mono m3
  · intro e he
    rcases List.mem_cons.mp he with rfl | he2
    · rfl
    · rw [List.mem_singleton] at he2
      subst he2
      rfl

theorem processAssemblySection_inv (u : ℕ → String) (n : ℕ) (secName : String)
    (ops : List BalancedOp) (c : LaneCursors) (L : List MachinePosition)
    (hcnt : ∀ i ∈ ops, 0 ≤ i.count) (h : MachInv L c) :
    MachInv (L ++ (processAssemblySection u n secName ops c).1)
      (processAssemblySection u n secName ops c).2.1 := by
  simp only [processAssemblySection]
  set startX := max (max c.A c.B) (max c.C c.D) + SECTION_GAP_X with hsx
  set mainOps := ops.filter (fun i => !(isButtonItem i)) with hmainOps
  set buttonOps := ops.filter isButtonItem with hbuttonOps
  set pm := placeAssemblyMain u (n + 1) mainOps startX secName with hpm
  set pb := placeAssemblyButton u pm.2.2 buttonOps startX secName with hpb
  have hmax : ∀ Lg : Lane, c.get Lg ≤ max (max c.A c.B) (max c.C c.D) := by
    intro Lg
    cases Lg <;> simp [LaneCursors.get, le_max_iff, le_refl, true_or, or_true]
  have hstartX0 : ∀ Lg : Lane, c.get Lg ≤ startX := by
    intro Lg
    rw [hsx]
    have := hmax Lg
    have hsg : (0 : ℚ) ≤ SECTION_GAP_X := by norm_num [SECTION_GAP_X]
    linarith
  have hLb : ∀ e ∈ L ++ [addBoard u n "Assembly" startX 0],
      isMachineEntity e = true → e.position.x < startX := by
    intro e he hm
    rcases List.mem_append.mp he with h1 | h2
    · exact lt_of_lt_of_le (h.2 e h1 hm) (hstartX0 e.lane)
    · rw [List.mem_singleton] at h2
      subst h2
      rw [addBoard_not_machineEntity] at hm
      cases hm
  have hpwb : ((L ++ [addBoard u n "Assembly" startX 0]).filter
      isMachineEntity).Pairwise distinctLaneX :=
    ((h.append_nonmachine [addBoard u n "Assembly" startX 0] (by
      intro e he
      rw [List.mem_singleton] at he
      subst he
      exact addBoard_not_machineEntity _ _ _ _ _)).1)
  have hcnt2 : ∀ i ∈ mainOps, 0 ≤ i.count := by
    intro i hi
    exact hcnt i (List.mem_of_mem_filter hi)
  obtain ⟨mpw, mb, mD⟩ := placeAssemblyMain_inv u (n + 1) mainOps startX
    secName (L ++ [addBoard u n "Assembly" startX 0]) hcnt2 hpwb hLb
  rw [← hpm] at mpw mb mD
  have hbD : ∀ e ∈ (L ++ [addBoard u n "Assembly" startX 0]) ++ pm.1,
      isMachineEntity e = true → e.lane = Lane.D → e.position.x < startX := by
    intro e he hm hD
    rcases List.mem_append.mp he with h1 | h2
    · exact hLb e h1 hm
    · exact absurd hD (mD e h2)
  obtain ⟨bpw, bb, bD⟩ := placeAssemblyButton_inv u pm.2.2 buttonOps startX
    secName ((L ++ [addBoard u n "Assembly" startX 0]) ++ pm.1) mpw hbD
  rw [← hpb] at bpw bb bD
  have hm1 : startX ≤ pm.2.1 := by
    rw [hpm]
    exact placeAssemblyMain_mono u (n + 1) mainOps startX secName hcnt2
  constructor
  · rw [show L ++ (addBoard u n "Assembly" startX 0 :: pm.1 ++ pb.1) =
        (((L ++ [addBoard u n "Assembly" startX 0]) ++ pm.1) ++ pb.1) from by
      simp]
    exact bpw
  · intro e he hm
    rw [lanecursors_mk_get]
    rw [show L ++ (addBoard u n "Assembly" startX 0 :: pm.1 ++ pb.1) =
        (((L ++ [addBoard u n "Assembly" startX 0]) ++ pm.1) ++ pb.1) from by
      simp] at he
    rcases List.mem_append.mp he with h12 | h3
    · rcases List.mem_append.mp h12 with h1 | h2
      · have := hLb e h1 hm
        have h4 : pm.2.1 ≤ max pm.2.1 pb.2.1 := le_max_left _ _
        linarith
      · have := mb e (List.mem_append.mpr (Or.inr h2)) hm
        have h4 : pm.2.1 ≤ max pm.2.1 pb.2.1 := le_max_left _ _
        linarith
    · have hD := bD e h3
      have := bb e (List.mem_append.mpr (Or.inr h3)) hm hD
      have h4 : pb.2.1 ≤ max pm.2.1 pb.2.1 := le_max_right _ _
      linarith

theorem processSections_inv (u : ℕ → String) (n : ℕ)
    (sections : List (String × List BalancedOp)) (c : LaneCursors)
    (L : List MachinePosition)
    (hcnt : ∀ sec ∈ sections, ∀ i ∈ sec.2, 0 ≤ i.count) (h : MachInv L c) :
    MachInv (L ++ (processSections u n sections c).1)
      (processSections u n sections c).2.1 := by
  induction sections generalizing n c L with
  | nil => simpa [processSections] using h
  | cons sec rest ih =>
    obtain ⟨secName, ops⟩ := sec
    by_cases hb : strIncludes (toLowerStr secName) assemblySection
    · simp only [processSections, hb, if_true]
      rw [← List.append_assoc]
      apply ih
      · intro s hs i hi
        exact hcnt s (List.mem_cons_of_mem _ hs) i hi
      · exact processAssemblySection_inv u n secName ops c L
          (hcnt _ (List.mem_cons_self _ _)) h
    · simp only [processSections, hb, Bool.false_eq_true, if_false]
      rw [← List.append_assoc]
      apply ih
      · intro s hs i hi
        exact hcnt s (List.mem_cons_of_mem _ hs) i hi
      · exact processPrepSection_inv u n secName ops c L h

/-- **C2**: in any successful `generateLayout` result, no two machine-class
entities (those emitted per machine instance, `machineIndex = some k`,
`k ≥ 0` — as opposed to board/inspection/trolley fixtures) share both the
lane and the along-line offset `position.x`. -/
theorem generateLayout_no_lane_position_clash (u : ℕ → String)
    (rawOperations : List Operation) (targetOutput workingHours : ℚ)
    (l : List MachinePosition)
    (hok : generateLayout u rawOperations targetOutput workingHours =
      Except.ok l) :
    (l.filter isMachineEntity).Pairwise distinctLaneX := by
  unfold generateLayout at hok
  cases hcal : calculateMachineRequirements rawOperations targetOutput
      workingHours with
  | error e =>
    rw [hcal] at hok
    cases hok
  | ok balanced =>
    rw [hcal] at hok
    simp only [Except.map, Except.ok.injEq] at hok
    subst hok
    have hcnt0 : ∀ b ∈ balanced, 0 ≤ b.count := by
      unfold calculateMachineRequirements at hcal
      by_cases hd : targetOutput ≤ 0 ∨ workingHours ≤ 0
      · rw [if_pos hd] at hcal
        cases hcal
      · rw [if_neg hd] at hcal
        simp only [Except.ok.injEq] at hcal
        subst hcal
        intro b hb
        rw [List.mem_map] at hb
        obtain ⟨op, _, rfl⟩ := hb
        have h1 : (1 : ℤ) ≤ max 1 ⌈op.smv * targetOutput / workingHours⌉ :=
          le_max_left _ _
        exact le_trans zero_le_one h1
    have hsec : ∀ sec ∈ groupBySection balanced, ∀ i ∈ sec.2, 0 ≤ i.count := by
      intro sec hs i hi
      rw [groupBySection_eq] at hs
      unfold groupedBy at hs
      rw [List.mem_map] at hs
      obtain ⟨sKey, _, rfl⟩ := hs
      exact hcnt0 i (List.mem_of_mem_filter hi)
    have h0 : MachInv [] { A := 0, B := 0, C := 0, D := 0 } := by
      constructor
      · simp
      · intro e he
        cases he
    have hfin := processSections_inv u 0 (groupBySection balanced)
      { A := 0, B := 0, C := 0, D := 0 } [] hsec h0
    simpa using hfin.1

/-- Witness for C2 at a concrete input (two sewing operations needing 2 and
1 machines). -/
theorem generateLayout_no_lane_position_clash_witness :
    ∃ l, generateLayout uZero [opSew2, opSew] 480 480 = Except.ok l ∧
      (l.filter isMachineEntity).Pairwise distinctLaneX := by
  have hplan : calculateMachineRequirements [opSew2, opSew] 480 480 =
      Except.ok [{ operation := opSew2, count := 2 },
        { operation := opSew, count := 1 }] := by
    norm_num [calculateMachineRequirements, opSew2, opSew]
  have hlay : generateLayout uZero [opSew2, opSew] 480 480 = Except.ok
      ((processSections uZero 0
        (groupBySection [{ operation := opSew2, count := 2 },
          { operation := opSew, count := 1 }])
        { A := 0, B := 0, C := 0, D := 0 }).1) := by
    unfold generateLayout
    rw [hplan]
    rfl
  exact ⟨_, hlay,
    generateLayout_no_lane_position_clash uZero [opSew2, opSew] 480 480 _ hlay⟩
